import Mathlib

/-!
# Verification of the smart-suggestion terminal proxy and log-lifecycle core

A shallow embedding, in Lean 4, of the session-recording proxy and its
log-rotation / process-lock / session-identity helpers:

* `src/pkg/logrotate.go` — `LogRotator`: `CheckAndRotate`, `ForceRotate`,
  `rotateFile`, `compressFile`, `cleanupOldBackups`.
* `src/cmd/main.go` — `writeToLogFile`, `createProcessLock`,
  `isProcessRunning`, `getSessionBasedLogFile`, `getSessionBasedLockFile`,
  `getCurrentSessionID`, `getTTYName`, `cleanupOldSessionLogs`, `runProxy`.

Go strings are embedded as `List Char`; Go `int`/`int64` sizes as `Nat`
(file sizes are non-negative); `time.Time` as an `Int` count of seconds
(`time.AddDate(0,0,-d)` is modelled as subtracting `d * 86400` seconds,
and `t.Before(u)` as `t < u`).  The file system is a single directory,
an association list from file name to metadata; this matches the code,
whose rotation, sweep and lock logic always stays inside one directory.
Fallible operations return `Except` values.
-/

namespace SmartSuggestion

/-- Coerce a Lean string literal to the `List Char` representation used
throughout the embedding. -/
def str (s : String) : List Char := s.data

/-! ## Go string primitives -/

/-- `strings.Split(s, sep)` for a one-character separator: split `s` at every
occurrence of `c`.  Always returns a non-empty list. -/
def splitOnChar (c : Char) : List Char → List (List Char)
  | [] => [[]]
  | x :: xs =>
    match splitOnChar c xs with
    | [] => [[]]
    | h :: t => if x = c then [] :: h :: t else (x :: h) :: t

/-- `strings.ReplaceAll(s, old, new)` for one-character `old` and `new`. -/
def replaceChar (a b : Char) (l : List Char) : List Char :=
  l.map (fun c => if c = a then b else c)

/-- The ASCII white-space characters accepted by Go's `unicode.IsSpace`
(the inputs handled here are ASCII). -/
def isGoSpace (c : Char) : Bool :=
  c = ' ' || c = '\t' || c = '\n' || c = (Char.ofNat 11) || c = (Char.ofNat 12) || c = '\r'

/-- `strings.TrimSpace`. -/
def goTrimSpace (l : List Char) : List Char :=
  ((l.dropWhile isGoSpace).reverse.dropWhile isGoSpace).reverse

/-- `strings.TrimSuffix(s, suffix)`. -/
def goTrimSuffix (l suffix : List Char) : List Char :=
  if suffix.isSuffixOf l then l.take (l.length - suffix.length) else l

/-- `strings.HasPrefix(s, p)` / pattern-literal prefix test. -/
def startsWithL (p l : List Char) : Bool := p.isPrefixOf l

/-- `strings.HasSuffix(s, p)`. -/
def endsWithL (p l : List Char) : Bool := p.isSuffixOf l

/-- Decimal digit characters of a natural number, most significant first:
the embedding of `fmt.Sprintf("%d", n)` for a non-negative value. -/
def natDec (n : Nat) : List Char :=
  if _h : n < 10 then [Char.ofNat ('0'.toNat + n)]
  else natDec (n / 10) ++ [Char.ofNat ('0'.toNat + n % 10)]
  decreasing_by exact Nat.div_lt_self (by omega) (by omega)

/-- `strconv.Atoi` restricted to what the lock file ever holds: an optional
sign followed by decimal digits (overflow is not modelled; the embedding
returns an unbounded `Int`). -/
def goAtoi (l : List Char) : Option Int :=
  let core : List Char → Option Nat := fun ds =>
    if ds = [] then none
    else if ds.all (fun c => c.isDigit) then
      some (ds.foldl (fun acc c => acc * 10 + (c.toNat - '0'.toNat)) 0)
    else none
  match l with
  | '+' :: rest => (core rest).map (fun n => (n : Int))
  | '-' :: rest => (core rest).map (fun n => -(n : Int))
  | _ => (core l).map (fun n => (n : Int))

/-! ## Go `path/filepath` (Unix rules) -/

/-- Join a list of path components with `/` separators:
`strings.Join(comps, "/")`. -/
def joinSlash : List (List Char) → List Char
  | [] => []
  | [x] => x
  | x :: y :: t => x ++ '/' :: joinSlash (y :: t)

/-- One step of `filepath.Clean`'s element processing: `acc` is the stack of
kept components, most recent first; `rooted` tells whether the path is
absolute.  Empty and `"."` components are dropped; `".."` pops a component
unless the stack is empty (kept when relative, dropped at the root of an
absolute path) or its top is itself `".."`. -/
def cleanStep (rooted : Bool) (acc : List (List Char)) (comp : List Char) :
    List (List Char) :=
  if comp = [] || comp = str "." then acc
  else if comp = str ".." then
    match acc with
    | [] => if rooted then [] else [comp]
    | a :: rest => if a = str ".." then comp :: a :: rest else rest
  else comp :: acc

/-- `filepath.Clean` on Unix, via its component algorithm: split on `/`,
process the components left to right with `cleanStep`, and reassemble,
restoring a leading `/` for absolute paths and answering `"."` when nothing
remains of a relative path. -/
def goClean (p : List Char) : List Char :=
  if p = [] then str "."
  else
    let rooted : Bool := decide (p.head? = some '/')
    let kept := ((splitOnChar '/' p).foldl (cleanStep rooted) []).reverse
    if rooted then '/' :: joinSlash kept
    else if kept = [] then str "." else joinSlash kept

/-- `filepath.Ext`: the suffix of `p` beginning at the final dot in the
final path element; empty when that element has no dot.  Computed on the
reversed string: collect characters up to and including the first `'.'`,
aborting at a `'/'`. -/
def revExt : List Char → Option (List Char)
  | [] => none
  | c :: cs =>
    if c = '/' then none
    else if c = '.' then some [c]
    else (revExt cs).map (fun t => c :: t)

/-- `filepath.Ext`. -/
def goExt (p : List Char) : List Char :=
  match revExt p.reverse with
  | some t => t.reverse
  | none => []

/-- Drop trailing `/` characters. -/
def stripTrailingSlashes (p : List Char) : List Char :=
  (p.reverse.dropWhile (fun c => c = '/')).reverse

/-- `filepath.Base`: empty path gives `"."`; otherwise trailing separators
are removed and the part after the last separator is kept; a path of only
separators gives `"/"`. -/
def goBase (p : List Char) : List Char :=
  if p = [] then str "."
  else
    let q := stripTrailingSlashes p
    if q = [] then ['/']
    else (splitOnChar '/' q).getLastD []

/-- The prefix of `p` up to and including its last `/` (empty when `p` has
no separator); this is the slice `path[:i+1]` that `filepath.Dir` cleans. -/
def dirSlice (p : List Char) : List Char :=
  (p.reverse.dropWhile (fun c => c ≠ '/')).reverse

/-- `filepath.Dir` (Unix: no volume name): clean the slice of the path up
to and including the final separator. -/
def goDir (p : List Char) : List Char := goClean (dirSlice p)

/-- `filepath.Join` for two elements: empty elements are dropped, the rest
are joined with `/` and cleaned; all-empty input gives the empty string. -/
def goJoin (a b : List Char) : List Char :=
  if a = [] && b = [] then []
  else if a = [] then goClean b
  else if b = [] then goClean a
  else goClean (a ++ '/' :: b)

/-! ## Session-based paths (`src/cmd/main.go`, `getSessionBasedLogFile` /
`getSessionBasedLockFile`) -/

/-- `getSessionBasedLogFile(baseLogFile, sessionID)`: with an empty id the
base path is returned unchanged; otherwise the id is spliced between the
base file name's stem and its extension and rejoined to the directory. -/
def getSessionBasedLogFile (baseLogFile sessionID : List Char) : List Char :=
  if sessionID = [] then baseLogFile
  else
    let dir := goDir baseLogFile
    let base := goBase baseLogFile
    let e := goExt base
    let base' := if e ≠ [] then goTrimSuffix base e else base
    let sessionLogFile := base' ++ '.' :: sessionID ++ e
    goJoin dir sessionLogFile

/-- `getSessionBasedLockFile(baseLockFile, sessionID)`: same construction as
`getSessionBasedLogFile`, applied to the lock path. -/
def getSessionBasedLockFile (baseLockFile sessionID : List Char) : List Char :=
  if sessionID = [] then baseLockFile
  else
    let dir := goDir baseLockFile
    let base := goBase baseLockFile
    let e := goExt base
    let base' := if e ≠ [] then goTrimSuffix base e else base
    let sessionLockFile := base' ++ '.' :: sessionID ++ e
    goJoin dir sessionLockFile

/-! ## Session identity (`getCurrentSessionID` / `getTTYName`) -/

/-- The inputs `getCurrentSessionID` and `getTTYName` consult: the
`SMART_SUGGESTION_SESSION_ID` environment variable, the `TTY` environment
variable, the trimmed standard output of the `tty` command (`none` when the
command fails), and the current process id. -/
structure SessionEnv where
  envSessionID : List Char
  envTTY : List Char
  ttyCmdOut : Option (List Char)
  pid : Nat

/-- `getTTYName`: if `$TTY` is non-empty, the part after its last `/` with
dots replaced by underscores (this branch returns unconditionally, since
`strings.Split` never yields an empty list); otherwise, when the `tty`
command succeeds, the last `/`-component of its trimmed output with dots
and colons replaced by underscores; otherwise the empty string. -/
def getTTYName (e : SessionEnv) : List Char :=
  if e.envTTY ≠ [] then
    replaceChar '.' '_' ((splitOnChar '/' e.envTTY).getLastD [])
  else
    match e.ttyCmdOut with
    | some out =>
      let ttyPath := goTrimSpace out
      let deviceName := (splitOnChar '/' ttyPath).getLastD []
      replaceChar ':' '_' (replaceChar '.' '_' deviceName)
    | none => []

/-- `getCurrentSessionID`: the `SMART_SUGGESTION_SESSION_ID` environment
variable when non-empty, else a non-empty TTY-derived name, else
`"pid_" + pid`. -/
def getCurrentSessionID (e : SessionEnv) : List Char :=
  if e.envSessionID ≠ [] then e.envSessionID
  else if getTTYName e ≠ [] then getTTYName e
  else str "pid_" ++ natDec e.pid

/-! ## File-system events

Traced operations of the proxy and lock manager.  `runProxy` and
`createProcessLock` are embedded as functions that also return the list of
file-system operations they perform, in program order, so that ordering
claims ("rotation check before write", "nothing touches the log before the
lock is held") can be stated about the trace. -/

inductive Op where
  | mkdirAll (p : List Char)
  | createExcl (p : List Char) (ok : Bool)
  | readFile (p : List Char)
  | removeFile (p : List Char)
  | flockTry (p : List Char) (ok : Bool)
  | writeFile (p : List Char) (data : List Char)
  | syncFile (p : List Char)
  | closeFile (p : List Char)
  | checkAndRotate (p : List Char)
  | openAppend (p : List Char)
  | appendData (p : List Char) (data : List Char)
  | writeStdout (data : List Char)
  | exitProcess (code : Nat)
deriving DecidableEq

/-- The path an operation touches, if any (`writeStdout` and `exitProcess`
touch no file). -/
def Op.touches : Op → Option (List Char)
  | .mkdirAll p => some p
  | .createExcl p _ => some p
  | .readFile p => some p
  | .removeFile p => some p
  | .flockTry p _ => some p
  | .writeFile p _ => some p
  | .syncFile p => some p
  | .closeFile p => some p
  | .checkAndRotate p => some p
  | .openAppend p => some p
  | .appendData p _ => some p
  | .writeStdout _ => none
  | .exitProcess _ => none

/-! ## Process lock manager (`createProcessLock` / `isProcessRunning`) -/

/-- Failure modes of `createProcessLock`: a live holder
(`"another instance is already running"`) or a lost `flock` race
(`"failed to acquire lock"`). -/
inductive LockError where
  | lockHeld
  | flockFailed
deriving DecidableEq

/-- Ambient facts `createProcessLock` consults: which PIDs answer signal 0,
the caller's own PID, and whether the non-blocking `flock` succeeds (kept
as an oracle because it arbitrates the cross-process race). -/
structure LockEnv where
  livePids : Int → Bool
  pid : Nat
  flockOk : Bool

/-- The contents of the lock file that `createProcessLock` writes:
`fmt.Sprintf("%d\n", pid)`. -/
def pidLine (pid : Nat) : List Char := natDec pid ++ ['\n']

/-- `isProcessRunning(lockPath)`: read the lock file (`none` means the read
failed, hence `false`), trim, parse the PID, and probe it with signal 0. -/
def isProcessRunning (livePids : Int → Bool) (content : Option (List Char)) : Bool :=
  match content with
  | none => false
  | some data =>
    match goAtoi (goTrimSpace data) with
    | none => false
    | some pid => livePids pid

/-- Result of `createProcessLock`: the returned value, the final lock-file
state (`none` = absent), and the operation trace. -/
structure LockResult where
  res : Except LockError Unit
  content : Option (List Char)
  trace : List Op

/-- The tail of `createProcessLock` after a successful exclusive create:
take the non-blocking `flock` (on failure close and remove the file and
fail), then write the caller's PID line and `Sync` it before returning the
handle.  Local write and sync failures are not modelled. -/
def lockAfterCreate (env : LockEnv) (lockPath : List Char) (pre : List Op) : LockResult :=
  if env.flockOk then
    { res := .ok ()
      content := some (pidLine env.pid)
      trace := pre ++ [.flockTry lockPath true, .writeFile lockPath (pidLine env.pid),
        .syncFile lockPath] }
  else
    { res := .error .flockFailed
      content := none
      trace := pre ++ [.flockTry lockPath false, .closeFile lockPath,
        .removeFile lockPath] }

/-- `createProcessLock(lockPath)`: make the lock directory, try an exclusive
create; if the file exists, probe the recorded PID — a live holder is an
error and leaves the file untouched, a stale file is removed and the
exclusive create retried once (in this single-process model the retry's
create succeeds, since the file was just removed). -/
def createProcessLock (env : LockEnv) (lockPath : List Char)
    (content : Option (List Char)) : LockResult :=
  let pre := [Op.mkdirAll (goDir lockPath)]
  match content with
  | none => lockAfterCreate env lockPath (pre ++ [.createExcl lockPath true])
  | some data =>
    if isProcessRunning env.livePids (some data) then
      { res := .error .lockHeld
        content := some data
        trace := pre ++ [.createExcl lockPath false, .readFile lockPath] }
    else
      lockAfterCreate env lockPath
        (pre ++ [.createExcl lockPath false, .readFile lockPath,
          .removeFile lockPath, .createExcl lockPath true])

/-! ## Directory model -/

/-- Metadata of one directory entry, as the code reads it via `os.Stat` /
`os.ReadDir`. -/
structure FileInfo where
  size : Nat
  mtime : Int
  isDir : Bool
deriving DecidableEq, Inhabited

/-- One directory: an association list from file name to metadata.
Well-formed states have `Nodup` names. -/
abbrev DirState := List (List Char × FileInfo)

/-- `os.Stat` within the directory. -/
def lookupD : DirState → List Char → Option FileInfo
  | [], _ => none
  | (n, i) :: rest, f => if n = f then some i else lookupD rest f

/-- `os.Remove` within the directory (no-op when absent). -/
def removeD : DirState → List Char → DirState
  | [], _ => []
  | (n, i) :: rest, f => if n = f then removeD rest f else (n, i) :: removeD rest f

/-- Create-or-overwrite an entry. -/
def insertD (d : DirState) (f : List Char) (i : FileInfo) : DirState :=
  removeD d f ++ [(f, i)]

/-- The names present in the directory. -/
def namesD (d : DirState) : List (List Char) := d.map Prod.fst

/-! ## Size/Age rotator (`src/pkg/logrotate.go`) -/

/-- `LogRotateConfig`.  Sizes and counts are `Nat` (`int64`/`int` in the
source, used only with non-negative values); `MaxAge` is in days. -/
structure LogRotateConfig where
  MaxSize : Nat
  MaxBackups : Nat
  Compress : Bool
  MaxAge : Nat
deriving DecidableEq

/-- `DefaultLogRotateConfig()`. -/
def DefaultLogRotateConfig : LogRotateConfig :=
  { MaxSize := 10 * 1024 * 1024, MaxBackups := 5, Compress := true, MaxAge := 30 }

/-- `time.Now().AddDate(0, 0, -maxAge)`, with days modelled as 86400
seconds. -/
def cutoffTime (now : Int) (maxAgeDays : Nat) : Int :=
  now - maxAgeDays * 86400

/-- The backup glob pattern `<stem>-*<ext>*` of `cleanupOldBackups` /
`GetBackupFiles`, as a predicate on one file name: `filepath.Match`
succeeds exactly when the name is `stem ++ "-" ++ u ++ ext ++ v` for some
`u`, `v` (directory entries contain no separator, so the `*`s are
unconstrained). -/
def backupPatternMatch (stem e fname : List Char) : Bool :=
  startsWithL (stem ++ ['-']) fname && decide (e <:+: fname.drop (stem.length + 1))

/-- Lexicographic order on names, a `Bool`-valued `≤`; `filepath.Glob`
returns its matches sorted in this order. -/
def lexLe : List Char → List Char → Bool
  | [], _ => true
  | _ :: _, [] => false
  | a :: as, b :: bs => if a < b then true else if b < a then false else lexLe as bs

/-- Sorted glob results: the names in the directory matching the backup
pattern, in lexicographic order. -/
def globBackups (stem e : List Char) (d : DirState) : List (List Char) :=
  List.insertionSort (fun a b => lexLe a b = true)
    ((namesD d).filter (fun f => backupPatternMatch stem e f))

/-- `cleanupOldBackups(logFilePath)`: glob `<stem>-*<ext>*`, skip the live
log, delete matches whose modification time is before
`now - MaxAge` days, sort the remainder newest-first and delete all but
the first `MaxBackups`.  `sort.Slice` is an unstable sort; insertion sort
by `mtime` descending realises one admissible ordering. -/
def cleanupOldBackups (cfg : LogRotateConfig) (logName : List Char) (now : Int)
    (d : DirState) : DirState :=
  let e := goExt logName
  let stem := goTrimSuffix logName e
  let consider := (globBackups stem e d).filter (fun f => f ≠ logName)
  let infos := consider.filterMap (fun f => (lookupD d f).map (fun i => (f, i.mtime)))
  let cutoff := cutoffTime now cfg.MaxAge
  let oldOnes := infos.filter (fun fi => decide (fi.2 < cutoff))
  let backups := infos.filter (fun fi => !decide (fi.2 < cutoff))
  let sorted := List.insertionSort (fun a b => b.2 ≤ a.2) backups
  let excess := sorted.drop cfg.MaxBackups
  (oldOnes ++ excess).foldl (fun st fi => removeD st fi.1) d

/-- The timestamped backup name `<stem>-<timestamp><ext>`; the formatted
`time.Now()` string is passed in as `ts`. -/
def backupName (logName ts : List Char) : List Char :=
  let e := goExt logName
  let stem := goTrimSuffix logName e
  stem ++ '-' :: ts ++ e

/-- Outcomes of `compressFile(src, dst)`: success with the compressed
size; failure before the destination is created (source open or
destination create failed); or an `io.Copy` failure that leaves a
truncated destination file behind — the code warns but removes nothing. -/
inductive CompressOutcome where
  | success (gzSize : Nat)
  | failNoOutput
  | failTruncated (sz : Nat)
deriving DecidableEq

/-- `rotateFile(logFilePath)`: rename the live file to its timestamped
backup name (`os.Rename` preserves size and modification time); when
compression is enabled and succeeds, write `<backup>.gz` and remove the
uncompressed backup, and when it fails keep the uncompressed backup and
continue; finally prune old backups.  Compression and cleanup failures are
non-fatal: the function only fails if the rename does (absent source,
modelled for totality — both callers stat first). -/
def rotateFile (cfg : LogRotateConfig) (logName ts : List Char) (now : Int)
    (co : CompressOutcome) (d : DirState) : Except Unit DirState :=
  match lookupD d logName with
  | none => .error ()
  | some info =>
    let bn := backupName logName ts
    let d1 := insertD (removeD d logName) bn info
    let d2 :=
      if cfg.Compress then
        match co with
        | .success gz => removeD (insertD d1 (bn ++ str ".gz") ⟨gz, now, false⟩) bn
        | .failNoOutput => d1
        | .failTruncated sz => insertD d1 (bn ++ str ".gz") ⟨sz, now, false⟩
      else d1
    .ok (cleanupOldBackups cfg logName now d2)

/-- `CheckAndRotate(logFilePath)`: absent file or size below `MaxSize` is a
silent no-op; otherwise rotate. -/
def CheckAndRotate (cfg : LogRotateConfig) (logName ts : List Char) (now : Int)
    (co : CompressOutcome) (d : DirState) : Except Unit DirState :=
  match lookupD d logName with
  | none => .ok d
  | some info =>
    if info.size < cfg.MaxSize then .ok d
    else rotateFile cfg logName ts now co d

/-- `ForceRotate(logFilePath)`: absent file is a silent no-op; otherwise
rotate regardless of size. -/
def ForceRotate (cfg : LogRotateConfig) (logName ts : List Char) (now : Int)
    (co : CompressOutcome) (d : DirState) : Except Unit DirState :=
  match lookupD d logName with
  | none => .ok d
  | some _ => rotateFile cfg logName ts now co d

/-! ## Stale session reaper (`cleanupOldSessionLogs`) -/

/-- The session glob pattern `<stem>.*<ext>` of `cleanupOldSessionLogs`,
as a predicate on one file name: `filepath.Match` succeeds exactly when
the name is `stem ++ "." ++ mid ++ ext` for some `mid` (directory entries
contain no separator). -/
def sessionPatternMatch (stem e fname : List Char) : Bool :=
  startsWithL (stem ++ ['.']) fname && endsWithL e (fname.drop (stem.length + 1))

/-- Whether the sweep removes a given entry: a non-directory whose name
matches the session pattern, is not the base file itself, and whose
modification time is before the cutoff. -/
def sweepRemoves (stem e baseName : List Char) (cutoff : Int)
    (ent : List Char × FileInfo) : Bool :=
  !ent.2.isDir && sessionPatternMatch stem e ent.1 && ent.1 ≠ baseName &&
    decide (ent.2.mtime < cutoff)

/-- `cleanupOldSessionLogs(baseLogPath, maxAge)`: read the directory and
remove every non-directory entry matching `<stem>.*<ext>`, other than the
base file itself, whose modification time is older than `maxAge` (a
duration, here in seconds).  Returns the new directory state and the list
of removed names. -/
def cleanupOldSessionLogs (baseLogPath : List Char) (maxAge now : Int)
    (d : DirState) : DirState × List (List Char) :=
  let baseName := goBase baseLogPath
  let e := goExt baseName
  let stem := if e ≠ [] then goTrimSuffix baseName e else baseName
  let cutoff := now - maxAge
  (d.filter (fun ent => ¬ sweepRemoves stem e baseName cutoff ent),
   (d.filter (fun ent => sweepRemoves stem e baseName cutoff ent)).map Prod.fst)

/-! ## `writeToLogFile` and the proxy session (`runProxy`) -/

/-- The operation trace of `writeToLogFile(logFilePath, content)`: a
rotation check (whose failure is absorbed), then an append-create open and
the write of `content + "\n"`. -/
def writeToLogFileTrace (p content : List Char) : List Op :=
  [.checkAndRotate p, .openAppend p, .appendData p (content ++ ['\n'])]

/-- How a `runProxy` invocation ended: returned at the nesting guard,
called `os.Exit` (which runs no deferred cleanup), or reached the relay
loop and completed. -/
inductive ProxyOutcome where
  | nested
  | exited (code : Nat)
  | completed
deriving DecidableEq

/-- Inputs of one `runProxy` invocation: the nesting-guard variable, the
`--session-id` flag and the value `generateSessionID()` would produce, the
`--log-file` flag, the prior state of the session lock file, the liveness
oracle and own PID, the `flock`/PTY/raw-mode outcomes, whether stdin is a
terminal, the log directory's contents, the clock, and the chunks that the
PTY output side delivers to the relay loop.  `debug` is `false` (its
default), so no debug-log writes appear. -/
structure ProxyEnv where
  proxyActive : Bool
  sessionIDFlag : List Char
  generatedID : List Char
  proxyLogFile : List Char
  lockContent : Option (List Char)
  livePids : Int → Bool
  pid : Nat
  flockOk : Bool
  ptyOk : Bool
  stdinIsTTY : Bool
  rawModeOk : Bool
  dirSt : DirState
  now : Int
  chunks : List (List Char)

/-- The session id `runProxy` settles on: the flag when non-empty,
otherwise the auto-generated one. -/
def proxySessionID (e : ProxyEnv) : List Char :=
  if e.sessionIDFlag ≠ [] then e.sessionIDFlag else e.generatedID

/-- The session log path of the invocation. -/
def proxySessionLog (e : ProxyEnv) : List Char :=
  getSessionBasedLogFile e.proxyLogFile (proxySessionID e)

/-- The session lock path of the invocation (base
`/tmp/smart-suggestion-proxy.lock`). -/
def proxySessionLock (e : ProxyEnv) : List Char :=
  getSessionBasedLockFile (str "/tmp/smart-suggestion-proxy.lock") (proxySessionID e)

/-- `runProxy`, as its trace of file operations and its outcome, following
`src/cmd/main.go` lines 1347–1563 in order: nesting guard; session id;
lock acquisition (exit 1 on failure); sweep of session logs older than 24
hours; PTY start (exit 1 on failure); raw mode when stdin is a terminal
(exit 1 on failure); deletion of a pre-existing session log; append-create
open of the session log; the relay loop, which tees every PTY output chunk
to stdout and straight to the session log; and the deferred closes and
lock release.  `os.Exit` paths run no deferred cleanup. -/
def runProxy (e : ProxyEnv) : List Op × ProxyOutcome :=
  if e.proxyActive then ([], .nested)
  else
    let logP := proxySessionLog e
    let lockP := proxySessionLock e
    let lr := createProcessLock ⟨e.livePids, e.pid, e.flockOk⟩ lockP e.lockContent
    match lr.res with
    | .error _ => (lr.trace ++ [.exitProcess 1], .exited 1)
    | .ok _ =>
      let swept := cleanupOldSessionLogs e.proxyLogFile (24 * 3600) e.now e.dirSt
      let tClean := swept.2.map (fun f => Op.removeFile (goJoin (goDir e.proxyLogFile) f))
      let t0 := lr.trace ++ tClean
      if ¬ e.ptyOk then (t0 ++ [.exitProcess 1], .exited 1)
      else if e.stdinIsTTY ∧ ¬ e.rawModeOk then (t0 ++ [.exitProcess 1], .exited 1)
      else
        let tDel := if (lookupD swept.1 (goBase logP)).isSome then [Op.removeFile logP] else []
        let tRelay := e.chunks.flatMap (fun c => [Op.writeStdout c, Op.appendData logP c])
        (t0 ++ tDel ++ [Op.openAppend logP] ++ tRelay ++
          [.closeFile logP, .closeFile lockP, .removeFile lockP], .completed)

/-! ## Statement-level definitions -/

/-- The spec's discipline for the proxy's session log: every `appendData`
to path `p` in the trace is preceded by a `checkAndRotate` of `p`. -/
def rotatorCheckedBeforeEveryLogWrite (tr : List Op) (p : List Char) : Prop :=
  ∀ i c, tr.get? i = some (.appendData p c) →
    ∃ j, j < i ∧ tr.get? j = some (.checkAndRotate p)

/-- The backup files a directory holds for a base log: entries matching
the backup glob pattern, the live log excluded. -/
def retainedBackups (logName : List Char) (d : DirState) : DirState :=
  let e := goExt logName
  let stem := goTrimSuffix logName e
  d.filter (fun ent => backupPatternMatch stem e ent.1 && ent.1 ≠ logName)

/-- A plain path segment: non-empty, not `"."` or `".."`, and free of
separators — the segments `filepath.Clean` passes through unchanged. -/
def plainSeg (l : List Char) : Bool :=
  l ≠ [] && l ≠ str "." && l ≠ str ".." && !decide ('/' ∈ l)

/-! ## Basic directory-model lemmas -/

theorem lookupD_append (a b : DirState) (x : List Char) :
    lookupD (a ++ b) x =
      match lookupD a x with
      | some i => some i
      | none => lookupD b x := by
  induction a with
  | nil => simp [lookupD]
  | cons hd tl ih =>
    obtain ⟨n, i⟩ := hd
    by_cases h : n = x <;> simp [lookupD, h, ih]

theorem lookupD_removeD (d : DirState) (f x : List Char) :
    lookupD (removeD d f) x = if x = f then none else lookupD d x := by
  induction d with
  | nil => simp [lookupD, removeD]
  | cons hd tl ih =>
    obtain ⟨n, i⟩ := hd
    by_cases hnf : n = f
    · rw [show removeD ((n, i) :: tl) f = removeD tl f by simp [removeD, hnf]]
      rw [ih]
      by_cases hx : x = f
      · simp [hx]
      · have hnx : n ≠ x := fun h => hx (h ▸ hnf)
        simp [hx, lookupD, hnx]
    · rw [show removeD ((n, i) :: tl) f = (n, i) :: removeD tl f by
        simp [removeD, hnf]]
      by_cases hnx : n = x
      · subst hnx
        have hxf : ¬ n = f := hnf
        simp [lookupD, hxf]
      · simp [lookupD, hnx, ih]

theorem lookupD_insertD (d : DirState) (f x : List Char) (i : FileInfo) :
    lookupD (insertD d f i) x = if x = f then some i else lookupD d x := by
  unfold insertD
  rw [lookupD_append, lookupD_removeD]
  by_cases hx : x = f
  · simp [hx, lookupD]
  · have hfx : ¬ f = x := fun h => hx h.symm
    simp only [hx, if_false, lookupD, hfx]
    cases h : lookupD d x <;> simp

theorem mem_of_lookupD_eq_some {d : DirState} {f : List Char} {i : FileInfo}
    (h : lookupD d f = some i) : (f, i) ∈ d := by
  induction d with
  | nil => simp [lookupD] at h
  | cons hd tl ih =>
    obtain ⟨n, j⟩ := hd
    by_cases hn : n = f
    · subst hn
      simp [lookupD] at h
      simp [h]
    · simp [lookupD, hn] at h
      simp [ih h]

theorem lookupD_isSome_iff {d : DirState} {f : List Char} :
    (lookupD d f).isSome ↔ f ∈ namesD d := by
  induction d with
  | nil => simp [lookupD, namesD]
  | cons hd tl ih =>
    obtain ⟨n, j⟩ := hd
    by_cases hn : n = f
    · subst hn; simp [lookupD, namesD]
    · simp only [lookupD, hn, if_false, namesD, List.map_cons, List.mem_cons]
      rw [show namesD tl = tl.map Prod.fst from rfl] at ih
      rw [ih]
      constructor
      · exact Or.inr
      · rintro (h | h)
        · exact absurd h.symm hn
        · exact h

theorem lookupD_eq_some_of_mem {d : DirState} (hnd : (namesD d).Nodup)
    {f : List Char} {i : FileInfo} (hm : (f, i) ∈ d) : lookupD d f = some i := by
  induction d with
  | nil => simp at hm
  | cons hd tl ih =>
    obtain ⟨n, j⟩ := hd
    have hnd' : ¬ n ∈ namesD tl ∧ (namesD tl).Nodup := by
      have := hnd
      simp only [namesD, List.map_cons, List.nodup_cons] at this
      exact this
    rcases List.mem_cons.mp hm with h | h
    · injection h with h1 h2
      subst h1; subst h2
      simp [lookupD]
    · have hnf : n ≠ f := by
        intro heq
        subst heq
        exact hnd'.1 (List.mem_map_of_mem Prod.fst h)

      simp only [lookupD, hnf, if_false]
      exact ih hnd'.2 h

theorem removeD_eq_filter (d : DirState) (f : List Char) :
    removeD d f = d.filter (fun ent => !decide (ent.1 = f)) := by
  induction d with
  | nil => simp [removeD]
  | cons hd tl ih =>
    obtain ⟨n, i⟩ := hd
    by_cases hnf : n = f <;> simp [removeD, hnf, ih]

theorem namesD_removeD_sublist (d : DirState) (f : List Char) :
    List.Sublist (namesD (removeD d f)) (namesD d) := by
  rw [removeD_eq_filter]
  unfold namesD
  exact (List.filter_sublist d).map Prod.fst

theorem nodup_namesD_removeD {d : DirState} (hnd : (namesD d).Nodup) (f : List Char) :
    (namesD (removeD d f)).Nodup :=
  (namesD_removeD_sublist d f).nodup hnd

theorem mem_namesD_removeD {d : DirState} {f x : List Char} :
    x ∈ namesD (removeD d f) ↔ x ∈ namesD d ∧ x ≠ f := by
  rw [removeD_eq_filter]
  unfold namesD
  constructor
  · intro hx
    obtain ⟨⟨n, i⟩, hmem, hfst⟩ := List.mem_map.mp hx
    have := List.mem_filter.mp hmem
    subst hfst
    refine ⟨List.mem_map_of_mem Prod.fst this.1, by simpa using this.2⟩
  · rintro ⟨hx, hne⟩
    obtain ⟨⟨n, i⟩, hmem, hfst⟩ := List.mem_map.mp hx
    subst hfst
    exact List.mem_map_of_mem Prod.fst
      (List.mem_filter.mpr ⟨hmem, by simpa using hne⟩)

theorem nodup_namesD_insertD {d : DirState} (hnd : (namesD d).Nodup)
    (f : List Char) (i : FileInfo) : (namesD (insertD d f i)).Nodup := by
  unfold insertD
  have hmap : namesD (removeD d f ++ [(f, i)]) = namesD (removeD d f) ++ [f] := by
    simp [namesD]
  rw [hmap]
  refine List.Nodup.append (nodup_namesD_removeD hnd f) (List.nodup_singleton f) ?_
  intro x hx hx1
  simp only [List.mem_singleton] at hx1
  subst hx1
  exact (mem_namesD_removeD.mp hx).2 rfl

theorem foldl_removeD_eq_filter (L : List (List Char × Int)) (d : DirState) :
    List.foldl (fun st fi => removeD st fi.1) d L =
      d.filter (fun ent => !decide (ent.1 ∈ L.map Prod.fst)) := by
  induction L generalizing d with
  | nil => simp
  | cons hd tl ih =>
    simp only [List.foldl_cons]
    rw [ih, removeD_eq_filter, List.filter_filter]
    apply List.filter_congr
    intro ent _
    by_cases h1 : ent.1 = hd.1 <;> by_cases h2 : ent.1 ∈ tl.map Prod.fst <;>
      simp [h1, h2]

theorem lookupD_eq_none_iff {d : DirState} {x : List Char} :
    lookupD d x = none ↔ x ∉ namesD d := by
  rw [← lookupD_isSome_iff]
  cases lookupD d x <;> simp

theorem lookupD_filter_none {d : DirState} {x : List Char}
    (p : List Char × FileInfo → Bool) (h : lookupD d x = none) :
    lookupD (d.filter p) x = none := by
  rw [lookupD_eq_none_iff] at h ⊢
  intro hx
  exact h (((List.filter_sublist d).map Prod.fst).subset hx)

/-! ## Extension and backup-name lemmas -/

theorem revExt_prefix {l t : List Char} (h : revExt l = some t) : t <+: l := by
  induction l generalizing t with
  | nil => simp [revExt] at h
  | cons c cs ih =>
    by_cases hsl : c = '/'
    · simp [revExt, hsl] at h
    · by_cases hdot : c = '.'
      · simp [revExt, hsl, hdot] at h
        subst h
        exact ⟨cs, by simp [hdot]⟩
      · simp [revExt, hsl, hdot] at h
        obtain ⟨t', ht', rfl⟩ := h
        obtain ⟨u, hu⟩ := ih ht'
        exact ⟨u, by simp [hu]⟩

theorem goExt_suffix (p : List Char) : goExt p <:+ p := by
  unfold goExt
  cases h : revExt p.reverse with
  | none => simp
  | some t =>
    obtain ⟨u, hu⟩ := revExt_prefix h
    refine ⟨u.reverse, ?_⟩
    have hp : u.reverse ++ t.reverse = (t ++ u).reverse := by simp
    rw [hp, hu, List.reverse_reverse]

theorem goTrimSuffix_append {l s : List Char} (h : s <:+ l) :
    goTrimSuffix l s ++ s = l := by
  obtain ⟨u, hu⟩ := h
  unfold goTrimSuffix
  rw [if_pos (List.isSuffixOf_iff_suffix.mpr ⟨u, hu⟩)]
  subst hu
  have hlen : u.length + s.length - s.length = u.length := by omega
  rw [List.length_append, hlen, List.take_left]

theorem stem_append_goExt (l : List Char) :
    goTrimSuffix l (goExt l) ++ goExt l = l :=
  goTrimSuffix_append (goExt_suffix l)

theorem backupName_length (l ts : List Char) :
    (backupName l ts).length = l.length + 1 + ts.length := by
  unfold backupName
  have h := congrArg List.length (stem_append_goExt l)
  simp only [List.length_append, List.length_cons] at h ⊢
  omega

theorem backupName_ne (l ts : List Char) : backupName l ts ≠ l := by
  intro h
  have := congrArg List.length h
  rw [backupName_length] at this
  omega

theorem gzName_ne (l ts : List Char) : backupName l ts ++ str ".gz" ≠ l := by
  intro h
  have := congrArg List.length h
  rw [List.length_append, backupName_length] at this
  simp [str] at this
  omega

/-- The only removals `cleanupOldBackups` performs are removals: a file
absent before the cleanup is absent after it. -/
theorem cleanupOldBackups_preserves_none {cfg : LogRotateConfig}
    {logName : List Char} {now : Int} {d : DirState} {x : List Char}
    (h : lookupD d x = none) :
    lookupD (cleanupOldBackups cfg logName now d) x = none := by
  unfold cleanupOldBackups
  rw [foldl_removeD_eq_filter]
  exact lookupD_filter_none _ h

/-- After a successful `rotateFile`, the live log path is absent: the file
was renamed to the (strictly longer) backup name, and neither compression
nor the cleanup pass recreates the live path. -/
theorem rotateFile_ok_log_absent {cfg : LogRotateConfig}
    {logName ts : List Char} {now : Int} {co : CompressOutcome}
    {d : DirState} {i : FileInfo} (h : lookupD d logName = some i) :
    ∃ d', rotateFile cfg logName ts now co d = .ok d' ∧
      lookupD d' logName = none := by
  unfold rotateFile
  rw [h]
  refine ⟨_, rfl, ?_⟩
  apply cleanupOldBackups_preserves_none
  have h1 : lookupD (insertD (removeD d logName) (backupName logName ts) i)
      logName = none := by
    rw [lookupD_insertD, if_neg (fun hc => backupName_ne logName ts hc.symm),
      lookupD_removeD, if_pos rfl]
  cases hc : cfg.Compress with
  | false => simpa [hc] using h1
  | true =>
    cases co with
    | success gz =>
      simp only [hc, if_true]
      rw [lookupD_removeD, if_neg (fun hc2 => backupName_ne logName ts hc2.symm),
        lookupD_insertD, if_neg (fun hc2 => gzName_ne logName ts hc2.symm)]
      exact h1
    | failNoOutput => simpa [hc] using h1
    | failTruncated sz =>
      simp only [hc, if_true]
      rw [lookupD_insertD, if_neg (fun hc2 => gzName_ne logName ts hc2.symm)]
      exact h1

/-! ## Claim C10 -/

/-- C10: for every base path, deriving the session-specific log path or
lock path with an empty session id returns the base path unchanged, so
callers that pass no session id read and write the base file. -/
theorem C10_empty_session_id_identity :
    ∀ base : List Char,
      getSessionBasedLogFile base [] = base ∧
      getSessionBasedLockFile base [] = base := by
  intro base
  constructor <;> simp [getSessionBasedLogFile, getSessionBasedLockFile]

/-! ## Claim C7 -/

/-- C7: `CheckAndRotate` and `ForceRotate` both return success and leave
the directory unchanged when the target log file does not exist;
`CheckAndRotate` additionally returns success without changing anything
when the file exists with size strictly below `MaxSize`; and `ForceRotate`
rotates unconditionally when the file exists (afterwards the live path is
gone, renamed to its backup name). -/
theorem C7_rotate_noop_semantics :
    ∀ (cfg : LogRotateConfig) (logName ts : List Char) (now : Int)
      (co : CompressOutcome) (d : DirState),
      (lookupD d logName = none →
        CheckAndRotate cfg logName ts now co d = .ok d ∧
        ForceRotate cfg logName ts now co d = .ok d) ∧
      (∀ i, lookupD d logName = some i → i.size < cfg.MaxSize →
        CheckAndRotate cfg logName ts now co d = .ok d) ∧
      (∀ i, lookupD d logName = some i →
        ForceRotate cfg logName ts now co d = rotateFile cfg logName ts now co d ∧
        ∃ d', ForceRotate cfg logName ts now co d = .ok d' ∧
          lookupD d' logName = none) := by
  intro cfg logName ts now co d
  refine ⟨?_, ?_, ?_⟩
  · intro h
    constructor <;> simp [CheckAndRotate, ForceRotate, h]
  · intro i h hs
    simp [CheckAndRotate, h, hs]
  · intro i h
    refine ⟨by simp [ForceRotate, h], ?_⟩
    obtain ⟨d', hd', habs⟩ :=
      @rotateFile_ok_log_absent cfg logName ts now co d i h
    exact ⟨d', by simp [ForceRotate, h, hd'], habs⟩

/-- Witness for C7 at concrete inputs: an empty directory (absent file)
and a one-file directory whose log is below the default `MaxSize`, plus a
forced rotation of that same file. -/
theorem C7_witness :
    (CheckAndRotate DefaultLogRotateConfig (str "a.log") (str "t") 0
        .failNoOutput [] = .ok [] ∧
     ForceRotate DefaultLogRotateConfig (str "a.log") (str "t") 0
        .failNoOutput [] = .ok []) ∧
    CheckAndRotate DefaultLogRotateConfig (str "a.log") (str "t") 0
        .failNoOutput [(str "a.log", ⟨5, 0, false⟩)] =
      .ok [(str "a.log", ⟨5, 0, false⟩)] ∧
    (∃ d', ForceRotate DefaultLogRotateConfig (str "a.log") (str "t") 0
        .failNoOutput [(str "a.log", ⟨5, 0, false⟩)] = .ok d' ∧
      lookupD d' (str "a.log") = none) :=
  ⟨(C7_rotate_noop_semantics DefaultLogRotateConfig (str "a.log") (str "t") 0
      .failNoOutput []).1 (by decide),
   (C7_rotate_noop_semantics DefaultLogRotateConfig (str "a.log") (str "t") 0
      .failNoOutput [(str "a.log", ⟨5, 0, false⟩)]).2.1 ⟨5, 0, false⟩
      (by decide) (by decide),
   ((C7_rotate_noop_semantics DefaultLogRotateConfig (str "a.log") (str "t") 0
      .failNoOutput [(str "a.log", ⟨5, 0, false⟩)]).2.2 ⟨5, 0, false⟩
      (by decide)).2⟩

/-! ## Pattern lemmas and Claim C5 -/

theorem startsWithL_iff {p l : List Char} :
    startsWithL p l = true ↔ ∃ t, p ++ t = l := by
  unfold startsWithL
  rw [List.isPrefixOf_iff_prefix]
  exact Iff.rfl

theorem endsWithL_iff {p l : List Char} :
    endsWithL p l = true ↔ ∃ t, t ++ p = l := by
  unfold endsWithL
  rw [List.isSuffixOf_iff_suffix]
  exact Iff.rfl

/-- The Boolean session pattern test realises exactly `filepath.Match` of
`<stem>.*<ext>`: the name splits as `stem ++ "." ++ mid ++ ext`. -/
theorem sessionPatternMatch_iff (stem e fname : List Char) :
    sessionPatternMatch stem e fname = true ↔
      ∃ mid, fname = stem ++ '.' :: mid ++ e := by
  unfold sessionPatternMatch
  rw [Bool.and_eq_true, startsWithL_iff, endsWithL_iff]
  constructor
  · rintro ⟨⟨rest, hrest⟩, ⟨mid, hmid⟩⟩
    have hdrop : fname.drop (stem.length + 1) = rest := by
      rw [← hrest]
      have hlen : (stem ++ ['.']).length = stem.length + 1 := by simp
      rw [← hlen, List.drop_left]
    rw [hdrop] at hmid
    refine ⟨mid, ?_⟩
    rw [← hrest, ← hmid]
    simp
  · rintro ⟨mid, rfl⟩
    refine ⟨⟨mid ++ e, by simp⟩, ⟨mid, ?_⟩⟩
    have h1 : stem ++ '.' :: mid ++ e = (stem ++ ['.']) ++ (mid ++ e) := by simp
    have hlen : (stem ++ ['.']).length = stem.length + 1 := by simp
    rw [h1, ← hlen, List.drop_left]

theorem entry_eq_of_nodup {d : DirState} (hnd : (namesD d).Nodup)
    {a b : List Char × FileInfo} (ha : a ∈ d) (hb : b ∈ d) (h : a.1 = b.1) :
    a = b := by
  obtain ⟨fa, ia⟩ := a
  obtain ⟨fb, ib⟩ := b
  simp only at h
  subst h
  have h1 := lookupD_eq_some_of_mem hnd ha
  have h2 := lookupD_eq_some_of_mem hnd hb
  rw [h1] at h2
  injection h2 with h2
  rw [h2]

/-- C5: the stale-session sweep removes exactly the non-directory entries
matching the `<stem>.<sessionID><ext>` pattern for the base path, other
than the base file itself, whose modification time is older than the
cutoff; the base file is never removed, and all other entries survive
unchanged. -/
theorem C5_stale_session_sweep :
    ∀ (baseLogPath : List Char) (maxAge now : Int) (d : DirState)
      (baseName stem e : List Char),
      (namesD d).Nodup →
      baseName = goBase baseLogPath →
      e = goExt baseName →
      stem = (if e ≠ [] then goTrimSuffix baseName e else baseName) →
      (∀ f, f ∈ (cleanupOldSessionLogs baseLogPath maxAge now d).2 ↔
        ∃ i mid, (f, i) ∈ d ∧ i.isDir = false ∧
          f = stem ++ '.' :: mid ++ e ∧ f ≠ baseName ∧
          i.mtime < now - maxAge) ∧
      baseName ∉ (cleanupOldSessionLogs baseLogPath maxAge now d).2 ∧
      (cleanupOldSessionLogs baseLogPath maxAge now d).1 =
        d.filter (fun ent =>
          !decide (ent.1 ∈ (cleanupOldSessionLogs baseLogPath maxAge now d).2)) := by
  intro baseLogPath maxAge now d baseName stem e hnd hbase he hstem
  have hremoved : ∀ f, f ∈ (cleanupOldSessionLogs baseLogPath maxAge now d).2 ↔
      ∃ i, (f, i) ∈ d ∧
        sweepRemoves stem e baseName (now - maxAge) (f, i) = true := by
    intro f
    unfold cleanupOldSessionLogs
    simp only [← hbase, ← he, ← hstem, List.mem_map, List.mem_filter]
    constructor
    · rintro ⟨⟨n, i⟩, ⟨hmem, hsw⟩, hfst⟩
      exact ⟨i, by simpa [← hfst] using hmem, by simpa [← hfst] using hsw⟩
    · rintro ⟨i, hmem, hsw⟩
      exact ⟨(f, i), ⟨hmem, hsw⟩, rfl⟩
  refine ⟨?_, ?_, ?_⟩
  · intro f
    rw [hremoved f]
    constructor
    · rintro ⟨i, hmem, hsw⟩
      unfold sweepRemoves at hsw
      simp only [Bool.and_eq_true, Bool.not_eq_true', decide_eq_true_eq] at hsw
      obtain ⟨⟨⟨hdir, hpat⟩, hne⟩, hmt⟩ := hsw
      obtain ⟨mid, hmid⟩ := (sessionPatternMatch_iff stem e f).mp hpat
      exact ⟨i, mid, hmem, hdir, hmid, by simpa using hne, hmt⟩
    · rintro ⟨i, mid, hmem, hdir, hmid, hne, hmt⟩
      refine ⟨i, hmem, ?_⟩
      unfold sweepRemoves
      simp only [Bool.and_eq_true, Bool.not_eq_true', decide_eq_true_eq]
      exact ⟨⟨⟨hdir, (sessionPatternMatch_iff stem e f).mpr ⟨mid, hmid⟩⟩,
        by simpa using hne⟩, hmt⟩
  · intro hmem
    obtain ⟨i, _, hsw⟩ := (hremoved baseName).mp hmem
    unfold sweepRemoves at hsw
    simp only [Bool.and_eq_true, Bool.not_eq_true', decide_eq_true_eq] at hsw
    exact hsw.1.2 rfl
  · have hfst : (cleanupOldSessionLogs baseLogPath maxAge now d).1 =
        d.filter (fun ent => !sweepRemoves stem e baseName (now - maxAge) ent) := by
      unfold cleanupOldSessionLogs
      simp only [← hbase, ← he, ← hstem]
      apply List.filter_congr
      intro ent _
      by_cases hsw : sweepRemoves stem e baseName (now - maxAge) ent = true <;>
        simp [hsw]
    rw [hfst]
    apply List.filter_congr
    intro ent hent
    by_cases hsw : sweepRemoves stem e baseName (now - maxAge) ent = true
    · have hmem : ent.1 ∈ (cleanupOldSessionLogs baseLogPath maxAge now d).2 :=
        (hremoved ent.1).mpr ⟨ent.2, by simpa using hent, by simpa using hsw⟩
      simp [hsw, hmem]
    · have hn : ent.1 ∉ (cleanupOldSessionLogs baseLogPath maxAge now d).2 := by
        intro hmem
        obtain ⟨i, hmem2, hsw2⟩ := (hremoved ent.1).mp hmem
        have heq : (ent.1, i) = ent := entry_eq_of_nodup hnd hmem2 hent rfl
        rw [heq] at hsw2
        exact hsw hsw2
      simp [hsw, hn]

/-- Witness for C5: the spec's scenario — base `proxy.log`, a 48-hour-old
`proxy.sessA.log`, a 1-hour-old `proxy.sessB.log`, and an ancient base
file; with a 24-hour window only `proxy.sessA.log` is swept. -/
theorem C5_witness :
    (str "proxy.sessA.log") ∈
      (cleanupOldSessionLogs (str "proxy.log") 86400 0
        [(str "proxy.sessA.log", ⟨7, -172800, false⟩),
         (str "proxy.sessB.log", ⟨7, -3600, false⟩),
         (str "proxy.log", ⟨7, -1000000, false⟩)]).2 ∧
    (str "proxy.log") ∉
      (cleanupOldSessionLogs (str "proxy.log") 86400 0
        [(str "proxy.sessA.log", ⟨7, -172800, false⟩),
         (str "proxy.sessB.log", ⟨7, -3600, false⟩),
         (str "proxy.log", ⟨7, -1000000, false⟩)]).2 ∧
    (str "proxy.sessB.log") ∉
      (cleanupOldSessionLogs (str "proxy.log") 86400 0
        [(str "proxy.sessA.log", ⟨7, -172800, false⟩),
         (str "proxy.sessB.log", ⟨7, -3600, false⟩),
         (str "proxy.log", ⟨7, -1000000, false⟩)]).2 := by
  have h := C5_stale_session_sweep (str "proxy.log") 86400 0
    [(str "proxy.sessA.log", ⟨7, -172800, false⟩),
     (str "proxy.sessB.log", ⟨7, -3600, false⟩),
     (str "proxy.log", ⟨7, -1000000, false⟩)]
    (str "proxy.log") (str "proxy") (str ".log")
    (by decide) (by decide) (by decide) (by decide)
  refine ⟨?_, h.2.1, by decide⟩
  exact (h.1 (str "proxy.sessA.log")).mpr
    ⟨⟨7, -172800, false⟩, str "sessA", by decide, rfl, by decide, by decide,
      by decide⟩

/-! ## Claim C2 -/

/-- C2: acquiring the process lock while the lock file records a live PID
fails with the lock-held error and leaves the lock file untouched (the
trace shows no removal or write); when the recorded PID is not live, the
stale file is removed and the exclusive create retried exactly once, after
which the caller's decimal PID line is written and synced to stable
storage before the handle is returned. -/
theorem C2_process_lock :
    ∀ (env : LockEnv) (lockPath data : List Char) (p : Int),
      (goAtoi (goTrimSpace data) = some p → env.livePids p = true →
        (createProcessLock env lockPath (some data)).res = .error .lockHeld ∧
        (createProcessLock env lockPath (some data)).content = some data ∧
        (createProcessLock env lockPath (some data)).trace =
          [.mkdirAll (goDir lockPath), .createExcl lockPath false,
           .readFile lockPath]) ∧
      (isProcessRunning env.livePids (some data) = false → env.flockOk = true →
        (createProcessLock env lockPath (some data)).res = .ok () ∧
        (createProcessLock env lockPath (some data)).content =
          some (pidLine env.pid) ∧
        (createProcessLock env lockPath (some data)).trace =
          [.mkdirAll (goDir lockPath), .createExcl lockPath false,
           .readFile lockPath, .removeFile lockPath, .createExcl lockPath true,
           .flockTry lockPath true, .writeFile lockPath (pidLine env.pid),
           .syncFile lockPath]) := by
  intro env lockPath data p
  constructor
  · intro hatoi hlive
    have hrun : isProcessRunning env.livePids (some data) = true := by
      unfold isProcessRunning
      simp only [hatoi]
      exact hlive
    refine ⟨?_, ?_, ?_⟩ <;> simp [createProcessLock, hrun]
  · intro hrun hflock
    refine ⟨?_, ?_, ?_⟩ <;>
      simp [createProcessLock, hrun, lockAfterCreate, hflock]

/-- Witness for C2: PID 42 is the only live process; a lock file holding
`"42\n"` is held, while one holding `"999\n"` is stale and reclaimed by
the caller (PID 7), whose PID line ends up written and synced. -/
theorem C2_witness :
    ((createProcessLock ⟨fun q => decide (q = 42), 7, true⟩ (str "/tmp/s.lock")
        (some (str "42\n"))).res = .error .lockHeld ∧
      (createProcessLock ⟨fun q => decide (q = 42), 7, true⟩ (str "/tmp/s.lock")
        (some (str "42\n"))).content = some (str "42\n") ∧
      (createProcessLock ⟨fun q => decide (q = 42), 7, true⟩ (str "/tmp/s.lock")
        (some (str "42\n"))).trace =
        [.mkdirAll (goDir (str "/tmp/s.lock")),
         .createExcl (str "/tmp/s.lock") false,
         .readFile (str "/tmp/s.lock")]) ∧
    ((createProcessLock ⟨fun q => decide (q = 42), 7, true⟩ (str "/tmp/s.lock")
        (some (str "999\n"))).res = .ok () ∧
      (createProcessLock ⟨fun q => decide (q = 42), 7, true⟩ (str "/tmp/s.lock")
        (some (str "999\n"))).content = some (pidLine 7) ∧
      (createProcessLock ⟨fun q => decide (q = 42), 7, true⟩ (str "/tmp/s.lock")
        (some (str "999\n"))).trace =
        [.mkdirAll (goDir (str "/tmp/s.lock")),
         .createExcl (str "/tmp/s.lock") false,
         .readFile (str "/tmp/s.lock"),
         .removeFile (str "/tmp/s.lock"),
         .createExcl (str "/tmp/s.lock") true,
         .flockTry (str "/tmp/s.lock") true,
         .writeFile (str "/tmp/s.lock") (pidLine 7),
         .syncFile (str "/tmp/s.lock")]) := by
  constructor
  · exact (C2_process_lock ⟨fun q => decide (q = 42), 7, true⟩
      (str "/tmp/s.lock") (str "42\n") 42).1 (by decide) (by decide)
  · exact (C2_process_lock ⟨fun q => decide (q = 42), 7, true⟩
      (str "/tmp/s.lock") (str "999\n") 999).2 (by decide) (by decide)

/-! ## Session-id lemmas and Claim C4 -/

theorem natDec_ne_nil (n : Nat) : natDec n ≠ [] := by
  unfold natDec
  split <;> simp

theorem natDec_not_sep (n : Nat) : '/' ∉ natDec n := by
  induction n using Nat.strong_induction_on with
  | _ n ih =>
    unfold natDec
    by_cases h : n < 10
    · simp only [h, dite_true]
      interval_cases n <;> decide
    · simp only [h, dite_false, List.mem_append, List.mem_singleton]
      rintro (hc | hc)
      · exact ih (n / 10) (Nat.div_lt_self (by omega) (by omega)) hc
      · have h10 : n % 10 < 10 := Nat.mod_lt _ (by omega)
        set r := n % 10 with hr
        clear_value r
        interval_cases r <;> exact absurd hc (by decide)

theorem splitOnChar_ne_nil (c : Char) (l : List Char) : splitOnChar c l ≠ [] := by
  cases l with
  | nil => simp [splitOnChar]
  | cons x xs =>
    unfold splitOnChar
    cases splitOnChar c xs with
    | nil => simp
    | cons h t => by_cases hx : x = c <;> simp [hx]

theorem getLastD_irrel {α : Type} {t : List α} (h : t ≠ []) (a b : α) :
    t.getLastD a = t.getLastD b := by
  cases t with
  | nil => exact absurd rfl h
  | cons x xs => simp only [List.getLastD_cons]

theorem sep_not_mem_splitLast (c : Char) (l : List Char) :
    c ∉ (splitOnChar c l).getLastD [] := by
  induction l with
  | nil => simp [splitOnChar]
  | cons x xs ih =>
    cases hs : splitOnChar c xs with
    | nil => exact absurd hs (splitOnChar_ne_nil c xs)
    | cons h t =>
      rw [hs] at ih
      by_cases hx : x = c
      · rw [show splitOnChar c (x :: xs) = [] :: h :: t by
          simp [splitOnChar, hs, hx]]
        simpa [List.getLastD_cons] using ih
      · rw [show splitOnChar c (x :: xs) = (x :: h) :: t by
          simp [splitOnChar, hs, hx]]
        cases t with
        | nil =>
          simp only [List.getLastD_cons, List.getLastD_nil] at ih ⊢
          intro hc
          rcases List.mem_cons.mp hc with hc | hc
          · exact hx hc.symm
          · exact ih hc
        | cons t1 ts =>
          rw [List.getLastD_cons, getLastD_irrel (by simp) (x :: h) h,
            ← List.getLastD_cons]
          exact ih

theorem mem_replaceChar {a b c : Char} {l : List Char}
    (h : c ∈ replaceChar a b l) : c = b ∨ c ∈ l := by
  unfold replaceChar at h
  obtain ⟨x, hx, hfx⟩ := List.mem_map.mp h
  by_cases hxa : x = a
  · simp [hxa] at hfx
    exact Or.inl hfx.symm
  · simp [hxa] at hfx
    exact Or.inr (hfx ▸ hx)

theorem not_mem_replaceChar {a b c : Char} {l : List Char}
    (hl : c ∉ l) (hb : c ≠ b) : c ∉ replaceChar a b l := by
  intro h
  rcases mem_replaceChar h with h | h
  · exact hb h
  · exact hl h

/-- The TTY-derived name never contains a path separator: it is the last
`/`-component of its source, further transformed only by single-character
substitutions that do not introduce `/`. -/
theorem getTTYName_not_sep (e : SessionEnv) : '/' ∉ getTTYName e := by
  unfold getTTYName
  by_cases htty : e.envTTY ≠ []
  · rw [if_pos htty]
    exact @not_mem_replaceChar '.' '_' '/' _
      (sep_not_mem_splitLast '/' e.envTTY) (by decide)
  · rw [if_neg htty]
    cases e.ttyCmdOut with
    | none => simp
    | some out =>
      simp only
      exact @not_mem_replaceChar ':' '_' '/' _
        (@not_mem_replaceChar '.' '_' '/' _
          (sep_not_mem_splitLast '/' (goTrimSpace out)) (by decide))
        (by decide)

/-- Counterexample to C4 as stated.  With override unset and `TTY`
set to `/dev/tty:1`, the resolver returns `tty:1` — the env-`TTY` branch
replaces only dots, not colons, so the claimed sanitized form `tty_1` is
not produced.  And a non-empty override is returned verbatim: `a/b`
yields a session id containing a path separator. -/
theorem C4_counterexample :
    getCurrentSessionID ⟨[], str "/dev/tty:1", none, 1⟩ = str "tty:1" ∧
    str "tty:1" ≠ str "tty_1" ∧
    getCurrentSessionID ⟨str "a/b", [], none, 1⟩ = str "a/b" ∧
    '/' ∈ getCurrentSessionID ⟨str "a/b", [], none, 1⟩ := by
  refine ⟨by decide, by decide, by decide, by decide⟩

/-- C4 (amended): session id resolution returns, in priority order, the
explicit override verbatim when non-empty (with no sanitization),
otherwise the TTY-derived device basename — in which the env-`TTY` branch
replaces only dots with underscores, while the `tty`-command branch
replaces dots and colons — otherwise `"pid_" + pid`; whenever the
override is empty, the result is non-empty and free of path separators. -/
theorem C4_amended_session_id_resolution :
    ∀ e : SessionEnv,
      (e.envSessionID ≠ [] → getCurrentSessionID e = e.envSessionID) ∧
      (e.envSessionID = [] → getTTYName e ≠ [] →
        getCurrentSessionID e = getTTYName e) ∧
      (e.envSessionID = [] → getTTYName e = [] →
        getCurrentSessionID e = str "pid_" ++ natDec e.pid) ∧
      (e.envSessionID = [] →
        getCurrentSessionID e ≠ [] ∧ '/' ∉ getCurrentSessionID e) ∧
      (e.envTTY ≠ [] →
        getTTYName e =
          replaceChar '.' '_' ((splitOnChar '/' e.envTTY).getLastD [])) := by
  intro e
  refine ⟨?_, ?_, ?_, ?_, ?_⟩
  · intro h
    simp [getCurrentSessionID, h]
  · intro h1 h2
    simp [getCurrentSessionID, h1, h2]
  · intro h1 h2
    simp [getCurrentSessionID, h1, h2]
  · intro h1
    by_cases h2 : getTTYName e ≠ []
    · rw [show getCurrentSessionID e = getTTYName e by
        simp [getCurrentSessionID, h1, h2]]
      exact ⟨h2, getTTYName_not_sep e⟩
    · push_neg at h2
      rw [show getCurrentSessionID e = str "pid_" ++ natDec e.pid by
        simp [getCurrentSessionID, h1, h2]]
      refine ⟨by simp [str], ?_⟩
      intro hc
      rcases List.mem_append.mp hc with hc | hc
      · exact absurd hc (by decide)
      · exact natDec_not_sep e.pid hc
  · intro h
    simp [getTTYName, h]

/-- Witness for C4 (amended) at concrete environments: an override `x`, a
`TTY` of `/dev/pts/3`, and an environment with neither (PID 5070). -/
theorem C4_witness :
    getCurrentSessionID ⟨str "x", str "/dev/tty:1", none, 1⟩ = str "x" ∧
    getCurrentSessionID ⟨[], str "/dev/pts/3", none, 1⟩ = str "3" ∧
    getCurrentSessionID ⟨[], [], none, 5070⟩ = str "pid_" ++ natDec 5070 ∧
    (getCurrentSessionID ⟨[], str "/dev/pts/3", none, 1⟩ ≠ [] ∧
      '/' ∉ getCurrentSessionID ⟨[], str "/dev/pts/3", none, 1⟩) ∧
    getTTYName ⟨[], str "/dev/a.b", none, 1⟩ =
      replaceChar '.' '_' ((splitOnChar '/' (str "/dev/a.b")).getLastD []) := by
  refine ⟨(C4_amended_session_id_resolution
      ⟨str "x", str "/dev/tty:1", none, 1⟩).1 (by decide), ?_, ?_, ?_, ?_⟩
  · rw [(C4_amended_session_id_resolution
      ⟨[], str "/dev/pts/3", none, 1⟩).2.1 (by decide) (by decide)]
    decide
  · exact (C4_amended_session_id_resolution ⟨[], [], none, 5070⟩).2.2.1
      (by decide) (by decide)
  · exact (C4_amended_session_id_resolution
      ⟨[], str "/dev/pts/3", none, 1⟩).2.2.2.1 (by decide)
  · exact (C4_amended_session_id_resolution
      ⟨[], str "/dev/a.b", none, 1⟩).2.2.2.2 (by decide)

/-! ## Lock-trace lemmas and Claim C9 -/

/-- Every operation `createProcessLock` performs touches either the lock
path or the lock path's directory (the `MkdirAll`). -/
theorem lock_trace_touches :
    ∀ (env : LockEnv) (lockPath : List Char) (content : Option (List Char)),
      ∀ op ∈ (createProcessLock env lockPath content).trace,
        ∀ p, op.touches = some p → p = lockPath ∨ p = goDir lockPath := by
  intro env lockPath content op hop p hp
  cases content with
  | none =>
    by_cases hf : env.flockOk <;>
      simp [createProcessLock, lockAfterCreate, hf] at hop <;>
      rcases hop with h | h | h | h | h <;> subst h <;>
      simp [Op.touches] at hp <;> simp [hp]
  | some data =>
    by_cases hrun : isProcessRunning env.livePids (some data) = true
    · simp [createProcessLock, hrun] at hop
      rcases hop with h | h | h <;> subst h <;>
        simp [Op.touches] at hp <;> simp [hp]
    · by_cases hf : env.flockOk <;>
        simp [createProcessLock, lockAfterCreate, hrun, hf] at hop <;>
        rcases hop with h | h | h | h | h | h | h | h <;> subst h <;>
        simp [Op.touches] at hp <;> simp [hp]

/-- `createProcessLock` never performs a rotation check. -/
theorem checkAndRotate_not_mem_lock_trace :
    ∀ (env : LockEnv) (lockPath : List Char) (content : Option (List Char))
      (p : List Char),
      Op.checkAndRotate p ∉ (createProcessLock env lockPath content).trace := by
  intro env lockPath content p hop
  cases content with
  | none =>
    by_cases hf : env.flockOk <;>
      simp [createProcessLock, lockAfterCreate, hf] at hop
  | some data =>
    by_cases hrun : isProcessRunning env.livePids (some data) = true
    · simp [createProcessLock, hrun] at hop
    · by_cases hf : env.flockOk <;>
        simp [createProcessLock, lockAfterCreate, hrun, hf] at hop

/-- C9: when lock acquisition fails at proxy start, the process exits with
code 1, the whole trace is the lock manager's operations followed by the
exit, and — since lock operations touch only the lock path and its
directory — the session log file is never created, deleted, or written.
The first conjunct additionally shows that, before the lock outcome is
known, no operation of the lock phase can touch any other path, so
anything touching the session log can only happen after a successful
acquisition. -/
theorem C9_no_log_ops_before_lock :
    ∀ e : ProxyEnv,
      (∀ op ∈ (createProcessLock ⟨e.livePids, e.pid, e.flockOk⟩
          (proxySessionLock e) e.lockContent).trace,
        ∀ p, op.touches = some p →
          p = proxySessionLock e ∨ p = goDir (proxySessionLock e)) ∧
      (e.proxyActive = false →
        ∀ err, (createProcessLock ⟨e.livePids, e.pid, e.flockOk⟩
            (proxySessionLock e) e.lockContent).res = .error err →
          runProxy e =
            ((createProcessLock ⟨e.livePids, e.pid, e.flockOk⟩
                (proxySessionLock e) e.lockContent).trace ++ [.exitProcess 1],
              .exited 1) ∧
          (proxySessionLog e ≠ proxySessionLock e →
            proxySessionLog e ≠ goDir (proxySessionLock e) →
            ∀ op ∈ (runProxy e).1, op.touches ≠ some (proxySessionLog e))) := by
  intro e
  refine ⟨lock_trace_touches _ _ _, ?_⟩
  intro hact err herr
  have hrp : runProxy e =
      ((createProcessLock ⟨e.livePids, e.pid, e.flockOk⟩
          (proxySessionLock e) e.lockContent).trace ++ [.exitProcess 1],
        .exited 1) := by
    unfold runProxy
    rw [if_neg (by simp [hact])]
    simp only [herr]
  refine ⟨hrp, ?_⟩
  intro hne1 hne2 op hop htouch
  rw [hrp] at hop
  rcases List.mem_append.mp hop with hop | hop
  · rcases lock_trace_touches _ _ _ op hop _ htouch with h | h
    · exact hne1 h
    · exact hne2 h
  · simp only [List.mem_singleton] at hop
    subst hop
    simp [Op.touches] at htouch

/-- Witness for C9: a concrete environment whose lock file is held by live
PID 42; the proxy exits 1 and no traced operation touches the session
log. -/
theorem C9_witness :
    runProxy ⟨false, str "s", [], str "/tmp/p.log",
        some (str "42\n"), fun q => decide (q = 42), 7, true, true, false,
        true, [], 0, [str "x"]⟩ =
      ((createProcessLock ⟨fun q => decide (q = 42), 7, true⟩
          (proxySessionLock ⟨false, str "s", [], str "/tmp/p.log",
            some (str "42\n"), fun q => decide (q = 42), 7, true, true, false,
            true, [], 0, [str "x"]⟩) (some (str "42\n"))).trace ++
        [.exitProcess 1], .exited 1) ∧
    (∀ op ∈ (runProxy ⟨false, str "s", [], str "/tmp/p.log",
        some (str "42\n"), fun q => decide (q = 42), 7, true, true, false,
        true, [], 0, [str "x"]⟩).1,
      op.touches ≠ some (proxySessionLog ⟨false, str "s", [], str "/tmp/p.log",
        some (str "42\n"), fun q => decide (q = 42), 7, true, true, false,
        true, [], 0, [str "x"]⟩)) := by
  have h := (C9_no_log_ops_before_lock ⟨false, str "s", [], str "/tmp/p.log",
    some (str "42\n"), fun q => decide (q = 42), 7, true, true, false,
    true, [], 0, [str "x"]⟩).2 rfl .lockHeld rfl
  exact ⟨h.1, h.2 (by decide) (by decide)⟩

/-! ## Claim C1 -/

/-- Counterexample to C1 as stated: in a concrete proxy session (lock
acquired, one PTY output chunk `"x"`), the chunk is appended to the
session log with no preceding — indeed no — `checkAndRotate` of the
session log anywhere in the trace: the relay loop tees PTY output straight
into the log file. -/
theorem C1_counterexample :
    ¬ rotatorCheckedBeforeEveryLogWrite
        (runProxy ⟨false, str "s", [], str "/tmp/p.log", none,
          fun _ => false, 1, true, true, false, true, [], 0, [str "x"]⟩).1
        (proxySessionLog ⟨false, str "s", [], str "/tmp/p.log", none,
          fun _ => false, 1, true, true, false, true, [], 0, [str "x"]⟩) := by
  intro h
  obtain ⟨j, hj, hcheck⟩ := h 7 (str "x") (by decide)
  have hmem : Op.checkAndRotate (proxySessionLog ⟨false, str "s", [],
      str "/tmp/p.log", none, fun _ => false, 1, true, true, false, true, [],
      0, [str "x"]⟩) ∈
      (runProxy ⟨false, str "s", [], str "/tmp/p.log", none,
        fun _ => false, 1, true, true, false, true, [], 0, [str "x"]⟩).1 :=
    List.get?_mem hcheck
  exact absurd hmem (by decide)

/-- C1 (amended): during a proxy session no rotation check is ever
performed — PTY output chunks are appended to the session log directly by
the tee writer — while `writeToLogFile` (the debug-log path) is the one
writer that always runs `CheckAndRotate` before its append. -/
theorem C1_amended_no_rotator_check_on_tee_path :
    (∀ (e : ProxyEnv) (p : List Char), Op.checkAndRotate p ∉ (runProxy e).1) ∧
    (∀ e : ProxyEnv, e.proxyActive = false →
      (createProcessLock ⟨e.livePids, e.pid, e.flockOk⟩ (proxySessionLock e)
        e.lockContent).res = .ok () →
      e.ptyOk = true → ¬ (e.stdinIsTTY ∧ ¬ e.rawModeOk) →
      ∀ c ∈ e.chunks,
        Op.appendData (proxySessionLog e) c ∈ (runProxy e).1) ∧
    (∀ (p content : List Char) (i : Nat) (c : List Char),
      (writeToLogFileTrace p content).get? i = some (.appendData p c) →
      ∃ j, j < i ∧
        (writeToLogFileTrace p content).get? j = some (.checkAndRotate p)) := by
  refine ⟨?_, ?_, ?_⟩
  · intro e p hop
    unfold runProxy at hop
    by_cases hact : e.proxyActive = true
    · rw [if_pos hact] at hop
      simp at hop
    · rw [if_neg hact] at hop
      cases hres : (createProcessLock ⟨e.livePids, e.pid, e.flockOk⟩
          (proxySessionLock e) e.lockContent).res with
      | error err =>
        simp only [hres] at hop
        rcases List.mem_append.mp hop with hop | hop
        · exact checkAndRotate_not_mem_lock_trace _ _ _ _ hop
        · simp at hop
      | ok u =>
        simp only [hres] at hop
        by_cases hpty : ¬ e.ptyOk = true
        · rw [if_pos hpty] at hop
          rcases List.mem_append.mp hop with hop | hop
          · rcases List.mem_append.mp hop with hop | hop
            · exact checkAndRotate_not_mem_lock_trace _ _ _ _ hop
            · simp at hop
          · simp at hop
        · rw [if_neg hpty] at hop
          by_cases hraw : (e.stdinIsTTY = true ∧ ¬ e.rawModeOk = true)
          · rw [if_pos hraw] at hop
            rcases List.mem_append.mp hop with hop | hop
            · rcases List.mem_append.mp hop with hop | hop
              · exact checkAndRotate_not_mem_lock_trace _ _ _ _ hop
              · simp at hop
            · simp at hop
          · rw [if_neg hraw] at hop
            rcases List.mem_append.mp hop with hop | hop
            · rcases List.mem_append.mp hop with hop | hop
              · rcases List.mem_append.mp hop with hop | hop
                · rcases List.mem_append.mp hop with hop | hop
                  · rcases List.mem_append.mp hop with hop | hop
                    · exact checkAndRotate_not_mem_lock_trace _ _ _ _ hop
                    · simp at hop
                  · split at hop <;> simp at hop
                · simp at hop
              · simp at hop
            · simp at hop
  · intro e hact hres hpty hraw c hc
    unfold runProxy
    rw [if_neg (by simp [hact])]
    simp only [hres]
    rw [if_neg (by simp [hpty])]
    rw [if_neg hraw]
    apply List.mem_append_left
    apply List.mem_append_right
    exact List.mem_flatMap.mpr ⟨c, hc, by simp⟩
  · intro p content i c hget
    match i with
    | 0 => simp [writeToLogFileTrace] at hget
    | 1 => simp [writeToLogFileTrace] at hget
    | 2 => exact ⟨0, by omega, rfl⟩
    | (n + 3) => simp [writeToLogFileTrace] at hget

/-- Witness for C1 (amended) at the concrete session of the
counterexample: no rotation check of any path appears in the trace, the
chunk `"x"` is appended to the session log, and `writeToLogFile`'s only
append (index 2) is preceded by its rotation check (index 0). -/
theorem C1_witness :
    Op.checkAndRotate (str "/tmp/p.s.log") ∉
      (runProxy ⟨false, str "s", [], str "/tmp/p.log", none,
        fun _ => false, 1, true, true, false, true, [], 0, [str "x"]⟩).1 ∧
    Op.appendData (proxySessionLog ⟨false, str "s", [], str "/tmp/p.log",
        none, fun _ => false, 1, true, true, false, true, [], 0,
        [str "x"]⟩) (str "x") ∈
      (runProxy ⟨false, str "s", [], str "/tmp/p.log", none,
        fun _ => false, 1, true, true, false, true, [], 0, [str "x"]⟩).1 ∧
    (∃ j, j < 2 ∧ (writeToLogFileTrace (str "/tmp/d.log") (str "m")).get? j =
      some (.checkAndRotate (str "/tmp/d.log"))) :=
  ⟨C1_amended_no_rotator_check_on_tee_path.1
      ⟨false, str "s", [], str "/tmp/p.log", none, fun _ => false, 1, true,
        true, false, true, [], 0, [str "x"]⟩ (str "/tmp/p.s.log"),
   C1_amended_no_rotator_check_on_tee_path.2.1
      ⟨false, str "s", [], str "/tmp/p.log", none, fun _ => false, 1, true,
        true, false, true, [], 0, [str "x"]⟩ rfl rfl rfl
      (by simp) (str "x") (by simp),
   C1_amended_no_rotator_check_on_tee_path.2.2 (str "/tmp/d.log") (str "m")
      2 (str "m" ++ ['\n']) (by decide)⟩

/-! ## Claim C3 -/

theorem exists_lookupD_of_mem_names {d : DirState} {f : List Char}
    (h : f ∈ namesD d) : ∃ i, lookupD d f = some i := by
  have hs := lookupD_isSome_iff.mpr h
  cases hl : lookupD d f with
  | none => rw [hl] at hs; simp at hs
  | some i => exact ⟨i, rfl⟩

theorem filterMap_lookup_names (d : DirState) (L : List (List Char))
    (hL : ∀ f ∈ L, f ∈ namesD d) :
    (L.filterMap (fun f => (lookupD d f).map (fun i => (f, i.mtime)))).map
      Prod.fst = L := by
  induction L with
  | nil => simp
  | cons f t ih =>
    obtain ⟨i, hi⟩ := exists_lookupD_of_mem_names (hL f (by simp))
    simp only [List.filterMap_cons, hi, Option.map_some', List.map_cons]
    rw [ih (fun g hg => hL g (by simp [hg]))]

theorem mem_filterMap_lookup {d : DirState} {L : List (List Char)}
    {fi : List Char × Int}
    (h : fi ∈ L.filterMap (fun g => (lookupD d g).map (fun i => (g, i.mtime)))) :
    ∃ i, lookupD d fi.1 = some i ∧ i.mtime = fi.2 := by
  obtain ⟨g, _, hmap⟩ := List.mem_filterMap.mp h
  cases hl : lookupD d g with
  | none => rw [hl] at hmap; simp at hmap
  | some i =>
    rw [hl] at hmap
    simp only [Option.map_some', Option.some.injEq] at hmap
    subst hmap
    exact ⟨i, hl, rfl⟩

/-- Core property of `cleanupOldBackups`, with every intermediate list of
the pipeline named by an equation (instantiated by `rfl` below): after the
cleanup pass, the retained backups number at most `MaxBackups`, and every
one has a modification time at or after the `MaxAge` cutoff. -/
theorem cleanup_spec_aux
    (cfg : LogRotateConfig) (logName stem e : List Char) (now cutoff : Int)
    (d : DirState) (consider : List (List Char))
    (infos oldOnes backups sorted : List (List Char × Int))
    (he : e = goExt logName)
    (hstem : stem = goTrimSuffix logName e)
    (_hcut : cutoff = cutoffTime now cfg.MaxAge)
    (hcons : consider = (globBackups stem e d).filter (fun f => f ≠ logName))
    (hinfos : infos = consider.filterMap
      (fun f => (lookupD d f).map (fun i => (f, i.mtime))))
    (hold : oldOnes = infos.filter (fun fi => decide (fi.2 < cutoff)))
    (hback : backups = infos.filter (fun fi => !decide (fi.2 < cutoff)))
    (hsort : sorted = List.insertionSort (fun a b => b.2 ≤ a.2) backups)
    (hclean : cleanupOldBackups cfg logName now d =
      (oldOnes ++ sorted.drop cfg.MaxBackups).foldl
        (fun st fi => removeD st fi.1) d)
    (hnd : (namesD d).Nodup) :
    (retainedBackups logName (cleanupOldBackups cfg logName now d)).length ≤
      cfg.MaxBackups ∧
    ∀ ent ∈ retainedBackups logName (cleanupOldBackups cfg logName now d),
      cutoff ≤ ent.2.mtime := by
  rw [hclean, foldl_removeD_eq_filter]
  have hretmem : ∀ ent, ent ∈ retainedBackups logName
      (d.filter (fun ent =>
        !decide (ent.1 ∈ (oldOnes ++ sorted.drop cfg.MaxBackups).map Prod.fst))) ↔
      ent ∈ d ∧ backupPatternMatch stem e ent.1 = true ∧ ent.1 ≠ logName ∧
        ent.1 ∉ (oldOnes ++ sorted.drop cfg.MaxBackups).map Prod.fst := by
    intro ent
    simp only [retainedBackups]
    rw [← he, ← hstem]
    constructor
    · intro h
      have h1 := List.mem_filter.mp h
      have h2 := List.mem_filter.mp h1.1
      simp only [Bool.and_eq_true, decide_eq_true_eq, Bool.not_eq_true',
        decide_eq_false_iff_not] at h1 h2
      exact ⟨h2.1, h1.2.1, h1.2.2, h2.2⟩
    · rintro ⟨h1, h2, h3, h4⟩
      refine List.mem_filter.mpr ⟨List.mem_filter.mpr ⟨h1, ?_⟩, ?_⟩
      · simpa using h4
      · simp [h2, h3]
  have hconsmem : ∀ f, f ∈ consider ↔
      (backupPatternMatch stem e f = true ∧ f ∈ namesD d ∧ f ≠ logName) := by
    intro f
    rw [hcons, List.mem_filter]
    unfold globBackups
    rw [(List.perm_insertionSort _ _).mem_iff, List.mem_filter]
    constructor
    · rintro ⟨⟨h1, h2⟩, h3⟩
      exact ⟨h2, h1, by simpa using h3⟩
    · rintro ⟨h1, h2, h3⟩
      exact ⟨⟨h2, h1⟩, by simpa using h3⟩
  have hcons_sub : ∀ f ∈ consider, f ∈ namesD d :=
    fun f hf => ((hconsmem f).mp hf).2.1
  have hfst : infos.map Prod.fst = consider := by
    rw [hinfos]
    exact filterMap_lookup_names d consider hcons_sub
  have hpart : List.Perm (oldOnes ++ backups) infos := by
    rw [hold, hback]
    exact List.filter_append_perm _ infos
  have hsortperm : List.Perm sorted backups := by
    rw [hsort]
    exact List.perm_insertionSort _ _
  have hmain : ∀ ent : List Char × FileInfo, ent ∈ d →
      backupPatternMatch stem e ent.1 = true → ent.1 ≠ logName →
      ent.1 ∉ (oldOnes ++ sorted.drop cfg.MaxBackups).map Prod.fst →
      (ent.1, ent.2.mtime) ∈ backups ∧
        ent.1 ∈ (sorted.take cfg.MaxBackups).map Prod.fst := by
    intro ent hmem hmatch hne hnotrem
    have hx : ent.1 ∈ consider :=
      (hconsmem ent.1).mpr ⟨hmatch, List.mem_map_of_mem Prod.fst hmem, hne⟩
    rw [← hfst] at hx
    obtain ⟨fi, hfi, hfi1⟩ := List.mem_map.mp hx
    have hlk : ∃ i, lookupD d fi.1 = some i ∧ i.mtime = fi.2 := by
      rw [hinfos] at hfi
      exact mem_filterMap_lookup hfi
    have hfi_eq : fi = (ent.1, ent.2.mtime) := by
      obtain ⟨i, hl, hm⟩ := hlk
      have hent : lookupD d ent.1 = some ent.2 := lookupD_eq_some_of_mem hnd hmem
      rw [hfi1, hent] at hl
      injection hl with hl
      exact Prod.ext hfi1 (by rw [← hm, ← hl])
    have hfi_ob : fi ∈ oldOnes ++ backups := hpart.mem_iff.mpr hfi
    rcases List.mem_append.mp hfi_ob with hfo | hfb
    · exfalso
      apply hnotrem
      rw [List.map_append]
      exact List.mem_append_left _ (hfi1 ▸ List.mem_map_of_mem Prod.fst hfo)
    · refine ⟨hfi_eq ▸ hfb, ?_⟩
      have hfs : fi ∈ sorted := hsortperm.mem_iff.mpr hfb
      have hsplit : fi ∈ sorted.take cfg.MaxBackups ∨
          fi ∈ sorted.drop cfg.MaxBackups := by
        rw [← List.mem_append, List.take_append_drop]
        exact hfs
      rcases hsplit with h | h
      · exact hfi1 ▸ List.mem_map_of_mem Prod.fst h
      · exfalso
        apply hnotrem
        rw [List.map_append]
        exact List.mem_append_right _ (hfi1 ▸ List.mem_map_of_mem Prod.fst h)
  constructor
  · have hsub : (retainedBackups logName
        (d.filter (fun ent => !decide (ent.1 ∈
          (oldOnes ++ sorted.drop cfg.MaxBackups).map Prod.fst)))).map Prod.fst ⊆
        (sorted.take cfg.MaxBackups).map Prod.fst := by
      intro x hx
      obtain ⟨ent, hent, hent1⟩ := List.mem_map.mp hx
      obtain ⟨h1, h2, h3, h4⟩ := (hretmem ent).mp hent
      exact hent1 ▸ (hmain ent h1 h2 h3 h4).2
    have hnodup : ((retainedBackups logName
        (d.filter (fun ent => !decide (ent.1 ∈
          (oldOnes ++ sorted.drop cfg.MaxBackups).map Prod.fst)))).map
        Prod.fst).Nodup := by
      have hsl : List.Sublist (retainedBackups logName
          (d.filter (fun ent => !decide (ent.1 ∈
            (oldOnes ++ sorted.drop cfg.MaxBackups).map Prod.fst)))) d := by
        simp only [retainedBackups]
        exact (List.filter_sublist _).trans (List.filter_sublist _)
      exact (hsl.map Prod.fst).nodup hnd
    calc (retainedBackups logName
        (d.filter (fun ent => !decide (ent.1 ∈
          (oldOnes ++ sorted.drop cfg.MaxBackups).map Prod.fst)))).length
        = ((retainedBackups logName
            (d.filter (fun ent => !decide (ent.1 ∈
              (oldOnes ++ sorted.drop cfg.MaxBackups).map Prod.fst)))).map
            Prod.fst).length := (List.length_map _ _).symm
      _ ≤ ((sorted.take cfg.MaxBackups).map Prod.fst).length :=
          (hnodup.subperm hsub).length_le
      _ = (sorted.take cfg.MaxBackups).length := List.length_map _ _
      _ ≤ cfg.MaxBackups := List.length_take_le _ _
  · intro ent hent
    obtain ⟨h1, h2, h3, h4⟩ := (hretmem ent).mp hent
    have hb := (hmain ent h1 h2 h3 h4).1
    rw [hback] at hb
    have := List.mem_filter.mp hb
    simp only [Bool.not_eq_true', decide_eq_false_iff_not] at this
    exact le_of_not_lt this.2

/-- The cleanup pass of the rotator: at most `MaxBackups` backups are
retained, none older than the cutoff. -/
theorem cleanupOldBackups_spec (cfg : LogRotateConfig) (logName : List Char)
    (now : Int) (d : DirState) (hnd : (namesD d).Nodup) :
    (retainedBackups logName (cleanupOldBackups cfg logName now d)).length ≤
      cfg.MaxBackups ∧
    ∀ ent ∈ retainedBackups logName (cleanupOldBackups cfg logName now d),
      cutoffTime now cfg.MaxAge ≤ ent.2.mtime :=
  cleanup_spec_aux cfg logName _ _ now _ d _ _ _ _ _ rfl rfl rfl rfl rfl rfl
    rfl rfl rfl hnd

/-- C3: after any completed rotation, the retained backups for the base
path number at most `MaxBackups`, and none has a modification time older
than `MaxAge` days before the rotation. -/
theorem C3_backup_retention :
    ∀ (cfg : LogRotateConfig) (logName ts : List Char) (now : Int)
      (co : CompressOutcome) (d d' : DirState),
      (namesD d).Nodup →
      rotateFile cfg logName ts now co d = .ok d' →
      (retainedBackups logName d').length ≤ cfg.MaxBackups ∧
      ∀ ent ∈ retainedBackups logName d',
        cutoffTime now cfg.MaxAge ≤ ent.2.mtime := by
  intro cfg logName ts now co d d' hnd hrot
  have key : ∀ d2 : DirState, (namesD d2).Nodup →
      cleanupOldBackups cfg logName now d2 = d' →
      (retainedBackups logName d').length ≤ cfg.MaxBackups ∧
      ∀ ent ∈ retainedBackups logName d',
        cutoffTime now cfg.MaxAge ≤ ent.2.mtime := by
    intro d2 hnd2 heq
    rw [← heq]
    exact cleanupOldBackups_spec cfg logName now d2 hnd2
  unfold rotateFile at hrot
  cases hlk : lookupD d logName with
  | none => rw [hlk] at hrot; simp at hrot
  | some info =>
    rw [hlk] at hrot
    have h1 : (namesD (insertD (removeD d logName)
        (backupName logName ts) info)).Nodup :=
      nodup_namesD_insertD (nodup_namesD_removeD hnd _) _ _
    cases hc : cfg.Compress with
    | false =>
      rw [hc] at hrot
      simp only [Bool.false_eq_true, if_false, Except.ok.injEq] at hrot
      exact key _ h1 hrot
    | true =>
      rw [hc] at hrot
      simp only [if_true, Except.ok.injEq] at hrot
      cases co with
      | success gz =>
        exact key _ (nodup_namesD_removeD (nodup_namesD_insertD h1 _ _) _) hrot
      | failNoOutput =>
        exact key _ h1 hrot
      | failTruncated sz =>
        exact key _ (nodup_namesD_insertD h1 _ _) hrot

/-- Witness for C3: `MaxBackups = 1`, `MaxAge = 1` day, a 10-byte live
log, one ancient backup `a-x.log` and one recent `a-y.log`; rotating with
compression leaves at most one backup, all younger than the cutoff. -/
theorem C3_witness :
    ∃ d', rotateFile ⟨5, 1, true, 1⟩ (str "a.log") (str "t") 0 (.success 4)
        [(str "a.log", ⟨10, -3, false⟩),
         (str "a-x.log", ⟨3, -200000, false⟩),
         (str "a-y.log", ⟨2, -10, false⟩)] = .ok d' ∧
      ((retainedBackups (str "a.log") d').length ≤ 1 ∧
        ∀ ent ∈ retainedBackups (str "a.log") d',
          cutoffTime 0 1 ≤ ent.2.mtime) :=
  ⟨_, rfl, C3_backup_retention ⟨5, 1, true, 1⟩ (str "a.log") (str "t") 0
    (.success 4)
    [(str "a.log", ⟨10, -3, false⟩),
     (str "a-x.log", ⟨3, -200000, false⟩),
     (str "a-y.log", ⟨2, -10, false⟩)] _ (by decide) rfl⟩

/-! ## Claim C6 -/

theorem removeD_eq_self_of_not_mem {d : DirState} {x : List Char}
    (h : x ∉ namesD d) : removeD d x = d := by
  induction d with
  | nil => simp [removeD]
  | cons hd tl ih =>
    obtain ⟨n, i⟩ := hd
    simp only [namesD, List.map_cons, List.mem_cons] at h
    push_neg at h
    rw [show removeD ((n, i) :: tl) x = (n, i) :: removeD tl x by
      simp only [removeD, if_neg (fun hc : n = x => h.1 hc.symm)]]
    rw [ih (by simpa [namesD] using h.2)]

theorem removeD_append (a b : DirState) (f : List Char) :
    removeD (a ++ b) f = removeD a f ++ removeD b f := by
  rw [removeD_eq_filter, removeD_eq_filter, removeD_eq_filter,
    List.filter_append]

/-- The freshly renamed backup matches the backup glob pattern. -/
theorem backupPatternMatch_backupName (logName ts : List Char) :
    backupPatternMatch (goTrimSuffix logName (goExt logName)) (goExt logName)
      (backupName logName ts) = true := by
  unfold backupPatternMatch backupName
  rw [Bool.and_eq_true, startsWithL_iff]
  constructor
  · exact ⟨ts ++ goExt logName, by simp⟩
  · rw [decide_eq_true_eq]
    have hdrop : (goTrimSuffix logName (goExt logName) ++ '-' :: ts ++
        goExt logName).drop
          ((goTrimSuffix logName (goExt logName)).length + 1) =
        ts ++ goExt logName := by
      have h1 : goTrimSuffix logName (goExt logName) ++ '-' :: ts ++
          goExt logName =
          (goTrimSuffix logName (goExt logName) ++ ['-']) ++
            (ts ++ goExt logName) := by simp
      have h2 : (goTrimSuffix logName (goExt logName) ++ ['-']).length =
          (goTrimSuffix logName (goExt logName)).length + 1 := by simp
      rw [h1, ← h2, List.drop_left]
    rw [hdrop]
    exact ⟨ts, [], by simp⟩

/-- The compressed backup also matches the backup glob pattern. -/
theorem backupPatternMatch_gzName (logName ts : List Char) :
    backupPatternMatch (goTrimSuffix logName (goExt logName)) (goExt logName)
      (backupName logName ts ++ str ".gz") = true := by
  unfold backupPatternMatch backupName
  rw [Bool.and_eq_true, startsWithL_iff]
  constructor
  · exact ⟨ts ++ goExt logName ++ str ".gz", by simp⟩
  · rw [decide_eq_true_eq]
    have hdrop : ((goTrimSuffix logName (goExt logName) ++ '-' :: ts ++
        goExt logName) ++ str ".gz").drop
          ((goTrimSuffix logName (goExt logName)).length + 1) =
        ts ++ goExt logName ++ str ".gz" := by
      have h1 : (goTrimSuffix logName (goExt logName) ++ '-' :: ts ++
          goExt logName) ++ str ".gz" =
          (goTrimSuffix logName (goExt logName) ++ ['-']) ++
            (ts ++ goExt logName ++ str ".gz") := by simp
      have h2 : (goTrimSuffix logName (goExt logName) ++ ['-']).length =
          (goTrimSuffix logName (goExt logName)).length + 1 := by simp
      rw [h1, ← h2, List.drop_left]
    rw [hdrop]
    exact ⟨ts, str ".gz", by simp⟩

/-- When the directory already satisfies the retention invariants — at
most `MaxBackups` backups, none older than the cutoff — `cleanupOldBackups`
removes nothing. -/
theorem cleanup_noop_aux
    (cfg : LogRotateConfig) (logName stem e : List Char) (now cutoff : Int)
    (d : DirState) (consider : List (List Char))
    (infos oldOnes backups sorted : List (List Char × Int))
    (he : e = goExt logName)
    (hstem : stem = goTrimSuffix logName e)
    (hcut : cutoff = cutoffTime now cfg.MaxAge)
    (hcons : consider = (globBackups stem e d).filter (fun f => f ≠ logName))
    (hinfos : infos = consider.filterMap
      (fun f => (lookupD d f).map (fun i => (f, i.mtime))))
    (hold : oldOnes = infos.filter (fun fi => decide (fi.2 < cutoff)))
    (hback : backups = infos.filter (fun fi => !decide (fi.2 < cutoff)))
    (hsort : sorted = List.insertionSort (fun a b => b.2 ≤ a.2) backups)
    (hclean : cleanupOldBackups cfg logName now d =
      (oldOnes ++ sorted.drop cfg.MaxBackups).foldl
        (fun st fi => removeD st fi.1) d)
    (hcount : (retainedBackups logName d).length ≤ cfg.MaxBackups)
    (hfresh : ∀ ent ∈ retainedBackups logName d, cutoff ≤ ent.2.mtime) :
    cleanupOldBackups cfg logName now d = d := by
  have hconsmem : ∀ f, f ∈ consider ↔
      (backupPatternMatch stem e f = true ∧ f ∈ namesD d ∧ f ≠ logName) := by
    intro f
    rw [hcons, List.mem_filter]
    unfold globBackups
    rw [(List.perm_insertionSort _ _).mem_iff, List.mem_filter]
    constructor
    · rintro ⟨⟨h1, h2⟩, h3⟩
      exact ⟨h2, h1, by simpa using h3⟩
    · rintro ⟨h1, h2, h3⟩
      exact ⟨⟨h2, h1⟩, by simpa using h3⟩
  have hfst : infos.map Prod.fst = consider := by
    rw [hinfos]
    exact filterMap_lookup_names d consider
      (fun f hf => ((hconsmem f).mp hf).2.1)
  have hretm : ∀ ent : List Char × FileInfo,
      ent ∈ retainedBackups logName d ↔ ent ∈ d ∧
        backupPatternMatch stem e ent.1 = true ∧ ent.1 ≠ logName := by
    intro ent
    simp only [retainedBackups]
    rw [← he, ← hstem, List.mem_filter]
    simp [and_assoc]
  have hinfos_prop : ∀ fi ∈ infos, ¬ (fi.2 < cutoff) := by
    intro fi hfi
    have hfc : fi.1 ∈ consider := by
      rw [← hfst]
      exact List.mem_map_of_mem Prod.fst hfi
    obtain ⟨hmatch, _, hne⟩ := (hconsmem fi.1).mp hfc
    obtain ⟨i', hl, hm⟩ := mem_filterMap_lookup (hinfos ▸ hfi)
    have hment : (fi.1, i') ∈ d := mem_of_lookupD_eq_some hl
    have hret : (fi.1, i') ∈ retainedBackups logName d :=
      (hretm (fi.1, i')).mpr ⟨hment, hmatch, hne⟩
    have := hfresh _ hret
    simp only at this
    omega
  have hold_nil : oldOnes = [] := by
    rw [hold, List.filter_eq_nil_iff]
    intro fi hfi
    simpa using hinfos_prop fi hfi
  have hback_eq : backups = infos := by
    rw [hback, List.filter_eq_self]
    intro fi hfi
    simpa using hinfos_prop fi hfi
  have hcons_perm : List.Perm consider
      ((retainedBackups logName d).map Prod.fst) := by
    rw [hcons]
    unfold globBackups
    have h1 := (List.perm_insertionSort (fun a b => lexLe a b = true)
      ((namesD d).filter (fun f => backupPatternMatch stem e f))).filter
      (fun f => decide (f ≠ logName))
    refine h1.trans ?_
    rw [List.filter_filter]
    have h2 : namesD d = d.map Prod.fst := rfl
    rw [h2, List.filter_map]
    simp only [retainedBackups]
    rw [← he, ← hstem]
    have heqf : List.filter ((fun a => decide (a ≠ logName) &&
        backupPatternMatch stem e a) ∘ Prod.fst) d =
        List.filter (fun ent => backupPatternMatch stem e ent.1 &&
          decide (ent.1 ≠ logName)) d := by
      apply List.filter_congr
      intro ent _
      simp [Function.comp, Bool.and_comm]
    rw [heqf]
  have hdrop : sorted.drop cfg.MaxBackups = [] := by
    apply List.drop_eq_nil_of_le
    have h1 : sorted.length = backups.length := by
      rw [hsort]
      exact (List.perm_insertionSort _ _).length_eq
    have h2 : backups.length = infos.length := by rw [hback_eq]
    have h3 : infos.length = consider.length := by
      rw [← hfst, List.length_map]
    have h4 : consider.length = (retainedBackups logName d).length := by
      rw [hcons_perm.length_eq, List.length_map]
    omega
  rw [hclean, hold_nil, hdrop]
  simp

/-- `cleanupOldBackups` is a no-op on a directory already satisfying the
retention invariants. -/
theorem cleanupOldBackups_noop (cfg : LogRotateConfig) (logName : List Char)
    (now : Int) (d : DirState)
    (hcount : (retainedBackups logName d).length ≤ cfg.MaxBackups)
    (hfresh : ∀ ent ∈ retainedBackups logName d,
      cutoffTime now cfg.MaxAge ≤ ent.2.mtime) :
    cleanupOldBackups cfg logName now d = d :=
  cleanup_noop_aux cfg logName _ _ now _ d _ _ _ _ _ rfl rfl rfl rfl rfl rfl
    rfl rfl rfl hcount hfresh

theorem retainedBackups_eq (logName : List Char) (X : DirState) :
    retainedBackups logName X =
      X.filter (fun ent =>
        backupPatternMatch (goTrimSuffix logName (goExt logName))
          (goExt logName) ent.1 && decide (ent.1 ≠ logName)) := rfl

theorem gzName_ne_backupName (l ts : List Char) :
    backupName l ts ++ str ".gz" ≠ backupName l ts := by
  intro h
  have := congrArg List.length h
  simp [str] at this

/-- C6: with compression enabled, a compression failure retains the
uncompressed backup while the rotation as a whole still returns success
(in either failure mode of `compressFile`); a compression success deletes
the uncompressed backup so that only the `.gz` backup remains.  Stated in
a directory with no pre-existing backup-pattern files, whose live log was
modified within the retention window, and with `MaxBackups ≥ 2`, so that
the cleanup pass afterwards keeps the fresh backup. -/
theorem C6_compression_failure_nonfatal :
    ∀ (cfg : LogRotateConfig) (logName ts : List Char) (now : Int)
      (d : DirState) (i : FileInfo) (gz sz : Nat),
      lookupD d logName = some i →
      cfg.Compress = true →
      (∀ ent ∈ d, backupPatternMatch (goTrimSuffix logName (goExt logName))
        (goExt logName) ent.1 = false) →
      2 ≤ cfg.MaxBackups →
      cutoffTime now cfg.MaxAge ≤ i.mtime →
      ((∀ co, co = CompressOutcome.failNoOutput ∨
          co = CompressOutcome.failTruncated sz →
        ∃ d', rotateFile cfg logName ts now co d = .ok d' ∧
          lookupD d' (backupName logName ts) = some i) ∧
       (∃ d', rotateFile cfg logName ts now (.success gz) d = .ok d' ∧
         lookupD d' (backupName logName ts) = none ∧
         lookupD d' (backupName logName ts ++ str ".gz") =
           some ⟨gz, now, false⟩)) := by
  intro cfg logName ts now d i gz sz hlk hcomp hnomatch hmb hage
  have hbnpat := backupPatternMatch_backupName logName ts
  have hgzpat := backupPatternMatch_gzName logName ts
  have hbn_not : backupName logName ts ∉ namesD d := by
    intro hmem
    obtain ⟨ent, hent, hfstq⟩ := List.mem_map.mp hmem
    have hq := hnomatch ent hent
    rw [hfstq, hbnpat] at hq
    simp at hq
  have hgz_not : backupName logName ts ++ str ".gz" ∉ namesD d := by
    intro hmem
    obtain ⟨ent, hent, hfstq⟩ := List.mem_map.mp hmem
    have hq := hnomatch ent hent
    rw [hfstq, hgzpat] at hq
    simp at hq
  have hA_sub : ∀ ent ∈ removeD d logName, ent ∈ d := by
    intro ent hent
    rw [removeD_eq_filter] at hent
    exact (List.mem_filter.mp hent).1
  have hfilterA : (removeD d logName).filter (fun ent =>
      backupPatternMatch (goTrimSuffix logName (goExt logName))
        (goExt logName) ent.1 && decide (ent.1 ≠ logName)) = [] := by
    rw [List.filter_eq_nil_iff]
    intro ent hent
    simp [hnomatch ent (hA_sub ent hent)]
  have hbn_notA : backupName logName ts ∉ namesD (removeD d logName) :=
    fun h => hbn_not (mem_namesD_removeD.mp h).1
  have hgz_notA : backupName logName ts ++ str ".gz" ∉
      namesD (removeD d logName) :=
    fun h => hgz_not (mem_namesD_removeD.mp h).1
  have hd1 : insertD (removeD d logName) (backupName logName ts) i =
      removeD d logName ++ [(backupName logName ts, i)] := by
    unfold insertD
    rw [removeD_eq_self_of_not_mem hbn_notA]
  have hcutnow : cutoffTime now cfg.MaxAge ≤ now := by
    unfold cutoffTime
    have h0 : (0 : Int) ≤ (cfg.MaxAge : Int) * 86400 := by positivity
    omega
  have hgz_notA1 : backupName logName ts ++ str ".gz" ∉
      namesD (removeD d logName ++ [(backupName logName ts, i)]) := by
    intro h
    rw [show namesD (removeD d logName ++ [(backupName logName ts, i)]) =
        namesD (removeD d logName) ++ [backupName logName ts] by
      simp [namesD]] at h
    rcases List.mem_append.mp h with h | h
    · exact hgz_notA h
    · simp only [List.mem_singleton] at h
      exact gzName_ne_backupName logName ts h
  constructor
  · intro co hco
    rcases hco with rfl | rfl
    · -- compressFile failed with no destination left
      have hret1 : retainedBackups logName
          (removeD d logName ++ [(backupName logName ts, i)]) =
          [(backupName logName ts, i)] := by
        rw [retainedBackups_eq, List.filter_append, hfilterA]
        simp [hbnpat, backupName_ne logName ts]
      have hnoop1 : cleanupOldBackups cfg logName now
          (removeD d logName ++ [(backupName logName ts, i)]) =
          removeD d logName ++ [(backupName logName ts, i)] := by
        apply cleanupOldBackups_noop
        · rw [hret1]
          simp only [List.length_singleton]
          omega
        · intro ent hent
          rw [hret1] at hent
          simp only [List.mem_singleton] at hent
          subst hent
          exact hage
      refine ⟨removeD d logName ++ [(backupName logName ts, i)], ?_, ?_⟩
      · unfold rotateFile
        rw [hlk]
        simp only [hcomp, if_true]
        rw [hd1, hnoop1]
      · rw [lookupD_append, lookupD_eq_none_iff.mpr hbn_notA]
        simp [lookupD]
    · -- io.Copy failed, leaving a truncated destination file
      have hd2t : insertD (insertD (removeD d logName)
          (backupName logName ts) i) (backupName logName ts ++ str ".gz")
          ⟨sz, now, false⟩ =
          (removeD d logName ++ [(backupName logName ts, i)]) ++
            [(backupName logName ts ++ str ".gz", ⟨sz, now, false⟩)] := by
        rw [hd1]
        unfold insertD
        rw [removeD_eq_self_of_not_mem hgz_notA1]
      have hret2 : retainedBackups logName
          ((removeD d logName ++ [(backupName logName ts, i)]) ++
            [(backupName logName ts ++ str ".gz", ⟨sz, now, false⟩)]) =
          [(backupName logName ts, i),
           (backupName logName ts ++ str ".gz", ⟨sz, now, false⟩)] := by
        rw [retainedBackups_eq, List.filter_append, List.filter_append,
          hfilterA]
        simp [hbnpat, hgzpat, backupName_ne logName ts, gzName_ne logName ts]
      have hnoop2 : cleanupOldBackups cfg logName now
          ((removeD d logName ++ [(backupName logName ts, i)]) ++
            [(backupName logName ts ++ str ".gz", ⟨sz, now, false⟩)]) =
          (removeD d logName ++ [(backupName logName ts, i)]) ++
            [(backupName logName ts ++ str ".gz", ⟨sz, now, false⟩)] := by
        apply cleanupOldBackups_noop
        · rw [hret2]
          simpa using hmb
        · intro ent hent
          rw [hret2] at hent
          rcases List.mem_cons.mp hent with h | h
          · subst h
            exact hage
          · simp only [List.mem_singleton] at h
            subst h
            exact hcutnow
      refine ⟨(removeD d logName ++ [(backupName logName ts, i)]) ++
        [(backupName logName ts ++ str ".gz", ⟨sz, now, false⟩)], ?_, ?_⟩
      · unfold rotateFile
        rw [hlk]
        simp only [hcomp, if_true]
        rw [hd2t, hnoop2]
      · rw [lookupD_append, lookupD_append,
          lookupD_eq_none_iff.mpr hbn_notA]
        simp [lookupD, Ne.symm (gzName_ne_backupName logName ts)]
  · -- compression succeeded
    have hd2s : removeD (insertD (insertD (removeD d logName)
        (backupName logName ts) i) (backupName logName ts ++ str ".gz")
        ⟨gz, now, false⟩) (backupName logName ts) =
        removeD d logName ++
          [(backupName logName ts ++ str ".gz", ⟨gz, now, false⟩)] := by
      have hstep : insertD (insertD (removeD d logName)
          (backupName logName ts) i) (backupName logName ts ++ str ".gz")
          ⟨gz, now, false⟩ =
          (removeD d logName ++ [(backupName logName ts, i)]) ++
            [(backupName logName ts ++ str ".gz", ⟨gz, now, false⟩)] := by
        rw [hd1]
        unfold insertD
        rw [removeD_eq_self_of_not_mem hgz_notA1]
      rw [hstep, removeD_append, removeD_append,
        removeD_eq_self_of_not_mem hbn_notA]
      rw [show removeD [(backupName logName ts, i)]
          (backupName logName ts) = [] by simp [removeD]]
      rw [show removeD [(backupName logName ts ++ str ".gz",
          (⟨gz, now, false⟩ : FileInfo))] (backupName logName ts) =
          [(backupName logName ts ++ str ".gz", ⟨gz, now, false⟩)] by
        simp [removeD, gzName_ne_backupName logName ts]]
      simp
    have hret3 : retainedBackups logName
        (removeD d logName ++
          [(backupName logName ts ++ str ".gz", ⟨gz, now, false⟩)]) =
        [(backupName logName ts ++ str ".gz", ⟨gz, now, false⟩)] := by
      rw [retainedBackups_eq, List.filter_append, hfilterA]
      simp [hgzpat, gzName_ne logName ts]
    have hnoop3 : cleanupOldBackups cfg logName now
        (removeD d logName ++
          [(backupName logName ts ++ str ".gz", ⟨gz, now, false⟩)]) =
        removeD d logName ++
          [(backupName logName ts ++ str ".gz", ⟨gz, now, false⟩)] := by
      apply cleanupOldBackups_noop
      · rw [hret3]
        simp only [List.length_singleton]
        omega
      · intro ent hent
        rw [hret3] at hent
        simp only [List.mem_singleton] at hent
        subst hent
        exact hcutnow
    refine ⟨removeD d logName ++
      [(backupName logName ts ++ str ".gz", ⟨gz, now, false⟩)], ?_, ?_, ?_⟩
    · unfold rotateFile
      rw [hlk]
      simp only [hcomp, if_true]
      rw [hd2s, hnoop3]
    · rw [lookupD_append, lookupD_eq_none_iff.mpr hbn_notA]
      simp [lookupD, Ne.symm (gzName_ne_backupName logName ts), str]
    · rw [lookupD_append, lookupD_eq_none_iff.mpr hgz_notA]
      simp [lookupD]

/-- Witness for C6: a one-file directory holding a fresh 10-byte `a.log`
with the default configuration; both compression failure modes retain the
uncompressed `a-t.log` and succeed, and compression success leaves only
`a-t.log.gz`. -/
theorem C6_witness :
    ((∀ co, co = CompressOutcome.failNoOutput ∨
        co = CompressOutcome.failTruncated 2 →
      ∃ d', rotateFile DefaultLogRotateConfig (str "a.log") (str "t") 0 co
          [(str "a.log", ⟨10, -5, false⟩)] = .ok d' ∧
        lookupD d' (backupName (str "a.log") (str "t")) =
          some ⟨10, -5, false⟩) ∧
     (∃ d', rotateFile DefaultLogRotateConfig (str "a.log") (str "t") 0
        (.success 4) [(str "a.log", ⟨10, -5, false⟩)] = .ok d' ∧
       lookupD d' (backupName (str "a.log") (str "t")) = none ∧
       lookupD d' (backupName (str "a.log") (str "t") ++ str ".gz") =
         some ⟨4, 0, false⟩)) :=
  C6_compression_failure_nonfatal DefaultLogRotateConfig (str "a.log")
    (str "t") 0 [(str "a.log", ⟨10, -5, false⟩)] ⟨10, -5, false⟩ 4 2
    (by decide) (by decide) (by decide) (by decide) (by decide)

/-! ## Path-normalisation lemmas and Claim C8 -/

theorem plainSeg_iff {l : List Char} :
    plainSeg l = true ↔
      (l ≠ [] ∧ l ≠ str "." ∧ l ≠ str ".." ∧ '/' ∉ l) := by
  unfold plainSeg
  simp [and_assoc]

theorem splitOnChar_cons_eq (c x : Char) (xs : List Char) :
    splitOnChar c (x :: xs) =
      match splitOnChar c xs with
      | [] => [[]]
      | h :: t => if x = c then [] :: h :: t else (x :: h) :: t := rfl

theorem splitOnChar_append (c : Char) (x y : List Char) :
    splitOnChar c (x ++ c :: y) = splitOnChar c x ++ splitOnChar c y := by
  induction x with
  | nil =>
    simp only [List.nil_append]
    rw [splitOnChar_cons_eq]
    cases hs : splitOnChar c y with
    | nil => exact absurd hs (splitOnChar_ne_nil c y)
    | cons h t => simp [splitOnChar]
  | cons a as ih =>
    simp only [List.cons_append]
    rw [splitOnChar_cons_eq, ih]
    cases hs : splitOnChar c as with
    | nil => exact absurd hs (splitOnChar_ne_nil c as)
    | cons h t =>
      rw [splitOnChar_cons_eq, hs]
      by_cases hac : a = c <;> simp [hac]

theorem splitOnChar_no_sep {c : Char} {s : List Char} (h : c ∉ s) :
    splitOnChar c s = [s] := by
  induction s with
  | nil => simp [splitOnChar]
  | cons a as ih =>
    have hac : a ≠ c := fun hq => h (by simp [hq])
    have has : c ∉ as := fun hq => h (by simp [hq])
    unfold splitOnChar
    rw [ih has]
    simp [fun hq : a = c => hac hq]

theorem joinSlash_splitOnChar (p : List Char) :
    joinSlash (splitOnChar '/' p) = p := by
  induction p with
  | nil => simp [splitOnChar, joinSlash]
  | cons a as ih =>
    cases hs : splitOnChar '/' as with
    | nil => exact absurd hs (splitOnChar_ne_nil '/' as)
    | cons h t =>
      rw [hs] at ih
      by_cases hac : a = '/'
      · rw [show splitOnChar '/' (a :: as) = [] :: h :: t by
          simp [splitOnChar, hs, hac]]
        rw [show joinSlash ([] :: h :: t) = [] ++ '/' :: joinSlash (h :: t)
          from rfl]
        rw [ih, hac]
        simp
      · rw [show splitOnChar '/' (a :: as) = (a :: h) :: t by
          simp [splitOnChar, hs, hac]]
        cases t with
        | nil =>
          simp only [joinSlash] at ih ⊢
          rw [ih]
        | cons t1 ts =>
          rw [show joinSlash ((a :: h) :: t1 :: ts) =
            (a :: h) ++ '/' :: joinSlash (t1 :: ts) from rfl]
          rw [show joinSlash (h :: t1 :: ts) =
            h ++ '/' :: joinSlash (t1 :: ts) from rfl] at ih
          rw [← ih]
          simp

theorem joinSlash_append_singleton {L : List (List Char)} (h : L ≠ [])
    (x : List Char) : joinSlash (L ++ [x]) = joinSlash L ++ '/' :: x := by
  induction L with
  | nil => exact absurd rfl h
  | cons a as ih =>
    cases as with
    | nil => simp [joinSlash]
    | cons b bs =>
      rw [show (a :: b :: bs) ++ [x] = a :: ((b :: bs) ++ [x]) from rfl]
      rw [show joinSlash (a :: (b :: bs ++ [x])) =
        a ++ '/' :: joinSlash (b :: bs ++ [x]) from rfl]
      rw [ih (by simp)]
      simp [joinSlash]

theorem cleanStep_plain {comp : List Char} (h : plainSeg comp = true)
    (rooted : Bool) (acc : List (List Char)) :
    cleanStep rooted acc comp = comp :: acc := by
  obtain ⟨h1, h2, h3, _⟩ := plainSeg_iff.mp h
  unfold cleanStep
  rw [if_neg (by simp [h1, h2]), if_neg h3]

theorem foldl_cleanStep_plain (rooted : Bool) :
    ∀ (segs : List (List Char)) (acc : List (List Char)),
      (∀ s ∈ segs, plainSeg s = true) →
      List.foldl (cleanStep rooted) acc segs = segs.reverse ++ acc := by
  intro segs
  induction segs with
  | nil => simp
  | cons a as ih =>
    intro acc hall
    rw [List.foldl_cons, cleanStep_plain (hall a (by simp)) rooted acc,
      ih (a :: acc) (fun s hs => hall s (by simp [hs]))]
    simp

theorem not_head_sep_of_plain {p : List Char}
    (hall : ∀ s ∈ splitOnChar '/' p, plainSeg s = true) :
    p.head? ≠ some '/' := by
  intro hh
  cases p with
  | nil => simp at hh
  | cons a as =>
    simp only [List.head?_cons, Option.some.injEq] at hh
    subst hh
    cases hs : splitOnChar '/' as with
    | nil => exact absurd hs (splitOnChar_ne_nil '/' as)
    | cons h t =>
      have hmem : ([] : List Char) ∈ splitOnChar '/' ('/' :: as) := by
        rw [show splitOnChar '/' ('/' :: as) = [] :: h :: t by
          simp [splitOnChar, hs]]
        simp
      have := hall [] hmem
      rw [plainSeg_iff] at this
      exact this.1 rfl

theorem goClean_plain {p : List Char} (hp : p ≠ [])
    (hall : ∀ s ∈ splitOnChar '/' p, plainSeg s = true) :
    goClean p = p := by
  unfold goClean
  rw [if_neg hp]
  have hroot : decide (p.head? = some '/') = false :=
    decide_eq_false (not_head_sep_of_plain hall)
  simp only [hroot, Bool.false_eq_true, if_false]
  rw [foldl_cleanStep_plain false (splitOnChar '/' p) [] hall]
  simp only [List.append_nil, List.reverse_reverse]
  rw [if_neg (splitOnChar_ne_nil '/' p)]
  exact joinSlash_splitOnChar p

theorem goClean_rooted_plain {q : List Char}
    (hall : ∀ s ∈ splitOnChar '/' q, plainSeg s = true) :
    goClean ('/' :: q) = '/' :: q := by
  unfold goClean
  rw [if_neg (by simp)]
  have hsplit : splitOnChar '/' ('/' :: q) = [] :: splitOnChar '/' q := by
    have hs := splitOnChar_append '/' [] q
    simpa [splitOnChar] using hs
  simp only [List.head?_cons, decide_eq_true_eq, if_true]
  rw [hsplit]
  rw [show (decide True : Bool) = true from rfl]
  rw [show List.foldl (cleanStep true) [] ([] :: splitOnChar '/' q) =
    List.foldl (cleanStep true) [] (splitOnChar '/' q) by
    simp [List.foldl_cons, cleanStep]]
  rw [foldl_cleanStep_plain true (splitOnChar '/' q) [] hall]
  simp only [List.append_nil, List.reverse_reverse]
  rw [joinSlash_splitOnChar q]

theorem dirSlice_append {bn : List Char} (hbn : '/' ∉ bn) (d : List Char) :
    dirSlice (d ++ '/' :: bn) = d ++ ['/'] := by
  unfold dirSlice
  rw [List.reverse_append]
  rw [show ('/' :: bn).reverse = bn.reverse ++ ['/'] by simp]
  rw [List.append_assoc, List.dropWhile_append]
  rw [show bn.reverse.dropWhile (fun c => c ≠ '/') = [] by
    rw [List.dropWhile_eq_nil_iff]
    intro a ha
    have hm : a ∈ bn := List.mem_reverse.mp ha
    simpa using fun hc : a = '/' => hbn (hc ▸ hm)]
  simp

theorem dirSlice_no_sep {p : List Char} (hp : '/' ∉ p) : dirSlice p = [] := by
  unfold dirSlice
  rw [show p.reverse.dropWhile (fun c => c ≠ '/') = [] by
    rw [List.dropWhile_eq_nil_iff]
    intro a ha
    have hm : a ∈ p := List.mem_reverse.mp ha
    simpa using fun hc : a = '/' => hp (hc ▸ hm)]
  rfl

theorem stripTrailingSlashes_of_last {x bn : List Char} (hbn : bn ≠ [])
    (hsep : '/' ∉ bn) : stripTrailingSlashes (x ++ bn) = x ++ bn := by
  unfold stripTrailingSlashes
  rw [List.reverse_append]
  cases hb : bn.reverse with
  | nil => exact absurd (by simpa using congrArg List.reverse hb) hbn
  | cons c cs =>
    have hc : c ∈ bn := List.mem_reverse.mp (hb ▸ (by simp))
    rw [show (c :: cs) ++ x.reverse = c :: (cs ++ x.reverse) from rfl]
    rw [List.dropWhile_cons,
      if_neg (by simp only [decide_eq_true_eq]
                 exact fun hq : c = '/' => hsep (hq ▸ hc))]
    rw [show c :: (cs ++ x.reverse) = (c :: cs) ++ x.reverse from rfl, ← hb,
      List.reverse_append]
    simp

theorem getLastD_concat (L : List (List Char)) (x : List Char) :
    (L ++ [x]).getLastD [] = x := by
  rw [List.getLastD_eq_getLast?, List.getLast?_concat]
  rfl

theorem goBase_append {bn : List Char} (hbn : bn ≠ []) (hsep : '/' ∉ bn)
    (d : List Char) : goBase (d ++ '/' :: bn) = bn := by
  unfold goBase
  rw [if_neg (by simp)]
  rw [show d ++ '/' :: bn = (d ++ ['/']) ++ bn by simp]
  rw [stripTrailingSlashes_of_last hbn hsep]
  rw [if_neg (by simp)]
  rw [show (d ++ ['/']) ++ bn = d ++ '/' :: bn by simp]
  rw [splitOnChar_append, splitOnChar_no_sep hsep, getLastD_concat]

theorem goBase_no_sep {bn : List Char} (hbn : bn ≠ []) (hsep : '/' ∉ bn) :
    goBase bn = bn := by
  unfold goBase
  rw [if_neg hbn]
  rw [show bn = [] ++ bn from rfl, stripTrailingSlashes_of_last hbn hsep]
  simp only [List.nil_append]
  rw [if_neg hbn, splitOnChar_no_sep hsep]
  rfl

theorem revExt_cons_eq (c : Char) (cs : List Char) :
    revExt (c :: cs) =
      if c = '/' then none
      else if c = '.' then some [c]
      else (revExt cs).map (fun t => c :: t) := rfl

theorem revExt_through {u : List Char} (hdot : '.' ∉ u) (hsep : '/' ∉ u)
    (v : List Char) : revExt (u ++ '.' :: v) = some (u ++ ['.']) := by
  induction u with
  | nil => simp [revExt_cons_eq]
  | cons a as ih =>
    have ha1 : a ≠ '/' := fun h => hsep (by simp [h])
    have ha2 : a ≠ '.' := fun h => hdot (by simp [h])
    rw [show (a :: as) ++ '.' :: v = a :: (as ++ '.' :: v) from rfl,
      revExt_cons_eq, if_neg ha1, if_neg ha2,
      ih (fun h => hdot (by simp [h])) (fun h => hsep (by simp [h]))]
    simp

theorem goExt_dotted {nm e : List Char} (hdot : '.' ∉ e) (hsep : '/' ∉ e) :
    goExt (nm ++ '.' :: e) = '.' :: e := by
  unfold goExt
  rw [show (nm ++ '.' :: e).reverse = e.reverse ++ '.' :: nm.reverse by simp]
  rw [revExt_through (by simpa using hdot) (by simpa using hsep)]
  simp

theorem goTrimSuffix_append_self (u s : List Char) :
    goTrimSuffix (u ++ s) s = u := by
  unfold goTrimSuffix
  rw [if_pos (List.isSuffixOf_iff_suffix.mpr ⟨u, rfl⟩)]
  rw [List.length_append]
  rw [show u.length + s.length - s.length = u.length by omega]
  exact List.take_left u s

theorem goJoin_dot {newbn : List Char} (h : plainSeg newbn = true) :
    goJoin (str ".") newbn = newbn := by
  have hb : newbn ≠ [] := (plainSeg_iff.mp h).1
  have hsep : '/' ∉ newbn := (plainSeg_iff.mp h).2.2.2
  unfold goJoin
  rw [if_neg (by simp [str]), if_neg (by simp [str]), if_neg (by simp [hb])]
  unfold goClean
  rw [if_neg (by simp [str])]
  rw [show (str "." ++ '/' :: newbn) = (str ".") ++ '/' :: newbn from rfl,
    splitOnChar_append, splitOnChar_no_sep (by decide : '/' ∉ str "."),
    splitOnChar_no_sep hsep]
  simp only [show decide ((str "." ++ '/' :: newbn).head? = some '/') = false
    by simp [str], Bool.false_eq_true, if_false]
  rw [show List.foldl (cleanStep false) [] ([str "."] ++ [newbn]) =
      [newbn] by
    rw [show [str "."] ++ [newbn] = [str ".", newbn] from rfl]
    rw [List.foldl_cons, show cleanStep false [] (str ".") = [] by
      unfold cleanStep
      rw [if_pos (by simp)]]
    rw [List.foldl_cons, cleanStep_plain h false []]
    rfl]
  simp [joinSlash, hb]

theorem goJoin_root {newbn : List Char} (h : plainSeg newbn = true) :
    goJoin ['/'] newbn = '/' :: newbn := by
  have hb : newbn ≠ [] := (plainSeg_iff.mp h).1
  have hsep : '/' ∉ newbn := (plainSeg_iff.mp h).2.2.2
  unfold goJoin
  rw [if_neg (by simp), if_neg (by simp), if_neg (by simp [hb])]
  unfold goClean
  rw [if_neg (by simp)]
  rw [show (['/'] ++ '/' :: newbn) = [] ++ '/' :: ('/' :: newbn) from rfl,
    splitOnChar_append]
  rw [show ('/' :: newbn) = [] ++ '/' :: newbn from rfl, splitOnChar_append,
    splitOnChar_no_sep hsep]
  rw [show splitOnChar '/' ([] : List Char) = [[]] from rfl]
  simp only [show decide ((([] : List Char) ++ '/' ::
      (([] : List Char) ++ '/' :: newbn)).head? = some '/') = true
    by simp, if_true]
  rw [show List.foldl (cleanStep true) [] ([[]] ++ ([[]] ++ [newbn])) =
      [newbn] by
    rw [show ([[]] ++ ([[]] ++ [newbn]) :
        List (List Char)) = [[], [], newbn] from rfl]
    rw [List.foldl_cons, show cleanStep true [] ([] : List Char) = [] by
      unfold cleanStep
      rw [if_pos (by simp)]]
    rw [List.foldl_cons, show cleanStep true [] ([] : List Char) = [] by
      unfold cleanStep
      rw [if_pos (by simp)]]
    rw [List.foldl_cons, cleanStep_plain h true []]
    rfl]
  simp [joinSlash]

theorem goClean_dir_slash {d : List Char}
    (hall : ∀ s ∈ splitOnChar '/' d, plainSeg s = true) :
    goClean (d ++ ['/']) = d := by
  have hd : d ≠ [] := by
    intro h
    subst h
    have hq := hall [] (by simp [splitOnChar])
    rw [plainSeg_iff] at hq
    exact hq.1 rfl
  unfold goClean
  rw [if_neg (by simp)]
  have hhead : (d ++ ['/']).head? = d.head? := by
    cases d with
    | nil => exact absurd rfl hd
    | cons a as => simp
  simp only [show decide ((d ++ ['/']).head? = some '/') = false by
    rw [hhead]
    exact decide_eq_false (not_head_sep_of_plain hall),
    Bool.false_eq_true, if_false]
  rw [show d ++ ['/'] = d ++ '/' :: [] from rfl, splitOnChar_append]
  rw [show splitOnChar '/' ([] : List Char) = [[]] from rfl]
  rw [List.foldl_append, foldl_cleanStep_plain false _ _ hall]
  rw [show List.foldl (cleanStep false)
      ((splitOnChar '/' d).reverse ++ []) [[]] =
      (splitOnChar '/' d).reverse ++ [] by
    rw [List.foldl_cons, show cleanStep false
      ((splitOnChar '/' d).reverse ++ []) ([] : List Char) =
      (splitOnChar '/' d).reverse ++ [] by
        unfold cleanStep
        rw [if_pos (by simp)]]
    rfl]
  simp only [List.append_nil, List.reverse_reverse]
  first
  | exact joinSlash_splitOnChar d
  | · rw [if_neg (splitOnChar_ne_nil '/' d)]
      exact joinSlash_splitOnChar d

theorem goClean_rooted_dir_slash {d : List Char}
    (hall : ∀ s ∈ splitOnChar '/' d, plainSeg s = true) :
    goClean (('/' :: d) ++ ['/']) = '/' :: d := by
  unfold goClean
  rw [if_neg (by simp)]
  simp only [show decide ((('/' :: d) ++ ['/']).head? = some '/') = true
    by simp, if_true]
  rw [show ('/' :: d) ++ ['/'] = [] ++ '/' :: (d ++ '/' :: []) from by simp,
    splitOnChar_append, splitOnChar_append]
  rw [show splitOnChar '/' ([] : List Char) = [[]] from rfl]
  rw [show ([[]] ++ (splitOnChar '/' d ++ [[]]) :
      List (List Char)) = [] :: (splitOnChar '/' d ++ [[]]) from rfl]
  rw [List.foldl_cons, show cleanStep true [] ([] : List Char) = [] by
    unfold cleanStep
    rw [if_pos (by simp)]]
  rw [List.foldl_append, foldl_cleanStep_plain true _ _ hall]
  rw [show List.foldl (cleanStep true)
      ((splitOnChar '/' d).reverse ++ []) [[]] =
      (splitOnChar '/' d).reverse ++ [] by
    rw [List.foldl_cons, show cleanStep true
      ((splitOnChar '/' d).reverse ++ []) ([] : List Char) =
      (splitOnChar '/' d).reverse ++ [] by
        unfold cleanStep
        rw [if_pos (by simp)]]
    rfl]
  simp only [List.append_nil, List.reverse_reverse, if_true]
  rw [joinSlash_splitOnChar d]

theorem goJoin_plain_dir {d newbn : List Char}
    (hall : ∀ s ∈ splitOnChar '/' d, plainSeg s = true)
    (h : plainSeg newbn = true) :
    goJoin d newbn = d ++ '/' :: newbn := by
  have hd : d ≠ [] := by
    intro hq
    subst hq
    have hq2 := hall [] (by simp [splitOnChar])
    rw [plainSeg_iff] at hq2
    exact hq2.1 rfl
  have hb : newbn ≠ [] := (plainSeg_iff.mp h).1
  unfold goJoin
  rw [if_neg (by simp [hd]), if_neg hd, if_neg hb]
  apply goClean_plain (by simp)
  intro s hs
  rw [splitOnChar_append, splitOnChar_no_sep (plainSeg_iff.mp h).2.2.2] at hs
  rcases List.mem_append.mp hs with hs | hs
  · exact hall s hs
  · simp only [List.mem_singleton] at hs
    exact hs ▸ h

theorem goJoin_rooted_dir {d newbn : List Char}
    (hall : ∀ s ∈ splitOnChar '/' d, plainSeg s = true)
    (h : plainSeg newbn = true) :
    goJoin ('/' :: d) newbn = ('/' :: d) ++ '/' :: newbn := by
  have hb : newbn ≠ [] := (plainSeg_iff.mp h).1
  unfold goJoin
  rw [if_neg (by simp), if_neg (by simp), if_neg hb]
  rw [show ('/' :: d) ++ '/' :: newbn = '/' :: (d ++ '/' :: newbn) from rfl]
  apply goClean_rooted_plain
  intro s hs
  rw [splitOnChar_append, splitOnChar_no_sep (plainSeg_iff.mp h).2.2.2] at hs
  rcases List.mem_append.mp hs with hs | hs
  · exact hall s hs
  · simp only [List.mem_singleton] at hs
    exact hs ▸ h

/-- Unfolding of `getSessionBasedLogFile` for a dotted base name. -/
theorem sessionLogFile_unfold {base sid nm e0 dirV : List Char}
    (hsid : sid ≠ [])
    (hdir : goDir base = dirV)
    (hbase : goBase base = nm ++ '.' :: e0)
    (hdot : '.' ∉ e0) (hsep : '/' ∉ e0) :
    getSessionBasedLogFile base sid =
      goJoin dirV (nm ++ '.' :: (sid ++ '.' :: e0)) := by
  unfold getSessionBasedLogFile
  rw [if_neg hsid]
  show goJoin (goDir base)
      ((if goExt (goBase base) ≠ [] then
          goTrimSuffix (goBase base) (goExt (goBase base))
        else goBase base) ++ '.' :: sid ++ goExt (goBase base)) = _
  rw [hdir, hbase, goExt_dotted hdot hsep, if_pos (by simp),
    goTrimSuffix_append_self]
  simp

/-- C8: for a base log path with a dotted final element and a non-empty,
separator-free session id, the session log path is the base path with the
id inserted between the stem and the extension, in the same directory.
Covered base-path shapes: a bare file name, a file at the root, a file
under a relative directory of plain segments, and a file under an absolute
directory of plain segments (other shapes differ from the literal
insertion only by `filepath.Clean` normalisation inside `filepath.Join`).
The example instance `proxy.log` + `pts_3` → `proxy.pts_3.log` is the
witness. -/
theorem C8_session_path_insertion :
    ∀ (d nm e sid : List Char),
      '.' ∉ e → '/' ∉ e → sid ≠ [] →
      plainSeg (nm ++ '.' :: e) = true →
      plainSeg (nm ++ '.' :: (sid ++ '.' :: e)) = true →
      (getSessionBasedLogFile (nm ++ '.' :: e) sid =
        nm ++ '.' :: (sid ++ '.' :: e)) ∧
      (getSessionBasedLogFile ('/' :: (nm ++ '.' :: e)) sid =
        '/' :: (nm ++ '.' :: (sid ++ '.' :: e))) ∧
      ((∀ s ∈ splitOnChar '/' d, plainSeg s = true) →
        getSessionBasedLogFile (d ++ '/' :: (nm ++ '.' :: e)) sid =
          d ++ '/' :: (nm ++ '.' :: (sid ++ '.' :: e))) ∧
      ((∀ s ∈ splitOnChar '/' d, plainSeg s = true) →
        getSessionBasedLogFile (('/' :: d) ++ '/' :: (nm ++ '.' :: e)) sid =
          ('/' :: d) ++ '/' :: (nm ++ '.' :: (sid ++ '.' :: e))) := by
  intro d nm e sid hdot hsep hsid hbn hnew
  have hbn_ne : nm ++ '.' :: e ≠ [] := (plainSeg_iff.mp hbn).1
  have hbn_sep : '/' ∉ nm ++ '.' :: e := (plainSeg_iff.mp hbn).2.2.2
  refine ⟨?_, ?_, ?_, ?_⟩
  · rw [sessionLogFile_unfold hsid
      (show goDir (nm ++ '.' :: e) = str "." by
        unfold goDir
        rw [dirSlice_no_sep hbn_sep]
        rfl)
      (goBase_no_sep hbn_ne hbn_sep) hdot hsep]
    exact goJoin_dot hnew
  · rw [sessionLogFile_unfold hsid
      (show goDir ('/' :: (nm ++ '.' :: e)) = ['/'] by
        unfold goDir
        rw [show '/' :: (nm ++ '.' :: e) = [] ++ '/' :: (nm ++ '.' :: e)
          from rfl, dirSlice_append hbn_sep]
        rfl)
      (by
        rw [show '/' :: (nm ++ '.' :: e) = [] ++ '/' :: (nm ++ '.' :: e)
          from rfl]
        exact goBase_append hbn_ne hbn_sep []) hdot hsep]
    exact goJoin_root hnew
  · intro hall
    rw [sessionLogFile_unfold hsid
      (show goDir (d ++ '/' :: (nm ++ '.' :: e)) = d by
        unfold goDir
        rw [dirSlice_append hbn_sep]
        exact goClean_dir_slash hall)
      (goBase_append hbn_ne hbn_sep d) hdot hsep]
    exact goJoin_plain_dir hall hnew
  · intro hall
    rw [sessionLogFile_unfold hsid
      (show goDir (('/' :: d) ++ '/' :: (nm ++ '.' :: e)) = '/' :: d by
        unfold goDir
        rw [dirSlice_append hbn_sep]
        exact goClean_rooted_dir_slash hall)
      (goBase_append hbn_ne hbn_sep ('/' :: d)) hdot hsep]
    exact goJoin_rooted_dir hall hnew

/-- Witness for C8: the spec's example, bare and under `/tmp`:
`proxy.log` + `pts_3` → `proxy.pts_3.log`, and
`/tmp/proxy.log` + `pts_3` → `/tmp/proxy.pts_3.log`. -/
theorem C8_witness :
    getSessionBasedLogFile (str "proxy.log") (str "pts_3") =
      str "proxy.pts_3.log" ∧
    getSessionBasedLogFile (str "/tmp/proxy.log") (str "pts_3") =
      str "/tmp/proxy.pts_3.log" := by
  have h := C8_session_path_insertion (str "tmp") (str "proxy") (str "log")
    (str "pts_3") (by decide) (by decide) (by decide) (by decide) (by decide)
  constructor
  · have h1 := h.1
    rw [show str "proxy" ++ '.' :: str "log" = str "proxy.log" by decide,
      show str "proxy" ++ '.' :: (str "pts_3" ++ '.' :: str "log") =
        str "proxy.pts_3.log" by decide] at h1
    exact h1
  · have h2 := h.2.2.2 (by decide)
    rw [show ('/' :: str "tmp") ++ '/' :: (str "proxy" ++ '.' :: str "log") =
        str "/tmp/proxy.log" by decide,
      show ('/' :: str "tmp") ++ '/' ::
          (str "proxy" ++ '.' :: (str "pts_3" ++ '.' :: str "log")) =
        str "/tmp/proxy.pts_3.log" by decide] at h2
    exact h2

end SmartSuggestion
